import Mathlib

/-!
Verification of `wtdbg2-homopolymer-decompression` against its specification.

The Rust sources are shallowly embedded:

* `src/decompress/mod.rs` — the coordinate mapper `decompress`;
* `src/wtdbg2_ctg_lay/mod.rs` — `LineContext`, its ordering, the
  direct-successor predicate `directly_precedes`, and the line codec;
* `src/main.rs` — the parser's context stamping, the sorter's reorder
  buffer, and the sorter's edge-offset arithmetic (IEEE-754 binary64);
* `src/fasta_sequence_index/mod.rs` — the byte-sequence index.

Machine integers are modelled as `Nat`/`Int`; `u64` overflow is made
explicit with `% 2 ^ 64` where the source performs wrapping arithmetic.
Fallible code (Rust `panic!`/`unwrap`/`assert!`) is modelled with `Option`.
Byte strings are `List Nat`; text lines are `List Char`.
-/

namespace Wtdbg2

/-! ## Section 1: the coordinate mapper (`src/decompress/mod.rs`) -/

/-- The overlapping pairs produced by Rust's `sequence.windows(2)`. -/
def pairs (sequence : List Nat) : List (Nat × Nat) :=
  sequence.zip sequence.tail

/-- The pair walk shared by both loops of `decompress`: starting from a
compressed counter `c` and an uncompressed cursor `u`, consume windows
until `c` reaches the target `t` (checked before each window, as in the
source), incrementing `c` iff the window's two bytes differ and `u`
always.  Returns the final `(c, u)`. -/
def scanTo (t : Nat) (c u : Nat) : List (Nat × Nat) → Nat × Nat
  | [] => (c, u)
  | (a, b) :: rest =>
    if c = t then (c, u)
    else scanTo t (if a ≠ b then c + 1 else c) (u + 1) rest

/-- The post-loop adjustment of both blocks of `decompress`: the windowed
iteration cannot recognise a target after the end of the sequence, so the
cursor is bumped by one if the loop ended without the counter having
reached the target. -/
def finishScan (t : Nat) (r : Nat × Nat) : Nat :=
  if r.1 ≠ t then r.2 + 1 else r.2

/-- `decompress` from `src/decompress/mod.rs`: the offset loop scans the
windows from the start; the limit loop continues with
`sequence.windows(2).skip(shifted_offset)`, its counter restarting at
`offset` and its cursor at `shifted_offset`. -/
def decompress (offset limit : Nat) (sequence : List Nat) : Nat × Nat :=
  let ps := pairs sequence
  let shifted_offset := finishScan offset (scanTo offset 0 0 ps)
  let shifted_limit :=
    finishScan limit (scanTo limit offset shifted_offset (ps.drop shifted_offset))
  (shifted_offset, shifted_limit)

/-- Modelled from the claim's words (spec §4.1): a single restarted pair
walk computing the mapped position of one target.  This is literally the
same computation as `decompress`'s offset block; the content of claim C1
is that the limit block, which continues the scan instead of restarting
it, agrees with this function. -/
def specScan (t : Nat) (sequence : List Nat) : Nat :=
  finishScan t (scanTo t 0 0 (pairs sequence))

/-- Number of maximal runs of equal bytes (the compressed length). -/
def runCount : List Nat → Nat
  | [] => 0
  | [_] => 1
  | a :: b :: rest => (if a = b then 0 else 1) + runCount (b :: rest)

@[simp] theorem runCount_nil : runCount [] = 0 := rfl

@[simp] theorem runCount_singleton (a : Nat) : runCount [a] = 1 := rfl

theorem runCount_cons_cons (a b : Nat) (rest : List Nat) :
    runCount (a :: b :: rest) = (if a = b then 0 else 1) + runCount (b :: rest) := rfl

theorem runCount_pos (a : Nat) (l : List Nat) : 1 ≤ runCount (a :: l) := by
  induction l generalizing a with
  | nil => simp
  | cons b rest ih => rw [runCount_cons_cons]; have := ih b; omega

@[simp] theorem pairs_nil : pairs [] = [] := rfl

@[simp] theorem pairs_singleton (a : Nat) : pairs [a] = [] := rfl

theorem pairs_cons_cons (a b : Nat) (rest : List Nat) :
    pairs (a :: b :: rest) = (a, b) :: pairs (b :: rest) := rfl

/-- The cursor of the pair walk never decreases. -/
theorem scanTo_u_le (t : Nat) (ps : List (Nat × Nat)) :
    ∀ c u, u ≤ (scanTo t c u ps).2 := by
  induction ps with
  | nil => intro c u; simp [scanTo]
  | cons p rest ih =>
    intro c u
    obtain ⟨a, b⟩ := p
    rw [scanTo]
    split
    · simp
    · exact le_trans (Nat.le_succ u) (ih _ (u + 1))

/-- Translation invariance of the walk in the cursor `u`. -/
theorem scanTo_u_shift (t : Nat) (ps : List (Nat × Nat)) :
    ∀ c u, scanTo t c u ps = ((scanTo t c 0 ps).1, u + (scanTo t c 0 ps).2) := by
  induction ps with
  | nil => intro c u; simp [scanTo]
  | cons p rest ih =>
    intro c u
    obtain ⟨a, b⟩ := p
    rw [scanTo, scanTo]
    split
    · simp
    · rw [ih _ (u + 1), ih _ (0 + 1)]
      simp only [Prod.mk.injEq, true_and]
      omega

/-- Shift invariance of the walk in the counter and the target. -/
theorem scanTo_c_shift (t : Nat) (ps : List (Nat × Nat)) :
    ∀ c u, scanTo (t + 1) (c + 1) u ps
      = ((scanTo t c u ps).1 + 1, (scanTo t c u ps).2) := by
  induction ps with
  | nil => intro c u; simp [scanTo]
  | cons p rest ih =>
    intro c u
    obtain ⟨a, b⟩ := p
    rw [scanTo, scanTo]
    by_cases hct : c = t
    · simp [hct]
    · rw [if_neg (by omega : ¬(c + 1 = t + 1)), if_neg hct]
      split
      · exact ih _ _
      · exact ih _ _

@[simp] theorem specScan_zero (s : List Nat) : specScan 0 s = 0 := by
  cases s with
  | nil => rfl
  | cons a rest =>
    cases rest with
    | nil => rfl
    | cons b rest' => simp [specScan, pairs_cons_cons, scanTo, finishScan]

theorem specScan_nil (t : Nat) : specScan (t + 1) [] = 1 := rfl

theorem specScan_one (t a : Nat) : specScan (t + 1) [a] = 1 := rfl

theorem specScan_cons_cons (t a b : Nat) (rest : List Nat) :
    specScan (t + 1) (a :: b :: rest)
      = 1 + (if a = b then specScan (t + 1) (b :: rest) else specScan t (b :: rest)) := by
  simp only [specScan, pairs_cons_cons]
  rw [scanTo, if_neg (by omega : ¬(0 = t + 1))]
  by_cases hab : a = b
  · rw [if_neg (by simp [hab] : ¬(a ≠ b)), if_pos hab,
      scanTo_u_shift (t + 1) (pairs (b :: rest)) 0 (0 + 1)]
    by_cases hfound : (scanTo (t + 1) 0 0 (pairs (b :: rest))).1 = t + 1 <;>
      simp [finishScan, hfound] <;> omega
  · rw [if_pos (by simp [hab] : a ≠ b), if_neg hab,
      show (0 : Nat) + 1 = 0 + 1 from rfl, scanTo_c_shift t (pairs (b :: rest)) 0 (0 + 1),
      scanTo_u_shift t (pairs (b :: rest)) 0 (0 + 1)]
    by_cases hfound : (scanTo t 0 0 (pairs (b :: rest))).1 = t <;>
      simp [finishScan, hfound] <;> omega

/-- A target at or past the compressed length maps to the sequence
length (for nonempty sequences). -/
theorem specScan_out_of_range (s : List Nat) :
    ∀ t, s ≠ [] → runCount s ≤ t → specScan t s = s.length := by
  induction s with
  | nil => intro t h; exact absurd rfl h
  | cons a rest ih =>
    intro t _ hrc
    cases rest with
    | nil =>
      have : 1 ≤ t := by simpa using hrc
      obtain ⟨t', rfl⟩ := Nat.exists_eq_add_of_le this
      rw [Nat.add_comm]
      exact specScan_one t' a
    | cons b rest' =>
      rw [runCount_cons_cons] at hrc
      have hb : 1 ≤ runCount (b :: rest') := runCount_pos b rest'
      by_cases hab : a = b
      · rw [if_pos hab] at hrc
        have ht : 1 ≤ t := by omega
        obtain ⟨t', rfl⟩ := Nat.exists_eq_add_of_le ht
        rw [Nat.add_comm 1 t', specScan_cons_cons, if_pos hab,
          ih (t' + 1) (by simp) (by omega)]
        simp [List.length_cons]
        omega
      · rw [if_neg hab] at hrc
        have ht : 1 ≤ t := by omega
        obtain ⟨t', rfl⟩ := Nat.exists_eq_add_of_le ht
        rw [Nat.add_comm 1 t', specScan_cons_cons, if_neg hab,
          ih t' (by simp) (by omega)]
        simp [List.length_cons]
        omega

/-- When the target is strictly inside the compressed length, the offset
walk finds it: the final counter equals the target. -/
theorem scanTo_found (s : List Nat) :
    ∀ t, t < runCount s → (scanTo t 0 0 (pairs s)).1 = t := by
  induction s with
  | nil => intro t ht; simp at ht
  | cons a rest ih =>
    intro t ht
    cases rest with
    | nil =>
      simp at ht
      subst ht
      rfl
    | cons b rest' =>
      rw [runCount_cons_cons] at ht
      cases t with
      | zero =>
        rw [pairs_cons_cons, scanTo]
        simp
      | succ t' =>
        rw [pairs_cons_cons, scanTo]
        rw [if_neg (by omega : ¬(0 = t' + 1))]
        by_cases hab : a = b
        · rw [if_pos hab] at ht
          rw [if_neg (by simp [hab] : ¬(a ≠ b)), scanTo_u_shift]
          exact ih (t' + 1) (by omega)
        · rw [if_neg hab] at ht
          rw [if_pos (by simp [hab] : a ≠ b),
            show (0 : Nat) + 1 = 0 + 1 from rfl, scanTo_c_shift, scanTo_u_shift]
          simp only
          rw [ih t' (by omega)]

/-- Continuing the walk from the point where a smaller target was found
agrees with running the walk for the larger target from scratch. -/
theorem scanTo_continue (t₁ t₂ : Nat) (hle : t₁ ≤ t₂) :
    ∀ (ps : List (Nat × Nat)) (c u : Nat), c ≤ t₁ →
      (scanTo t₁ c u ps).1 = t₁ →
      scanTo t₂ c u ps
        = scanTo t₂ t₁ (scanTo t₁ c u ps).2 (ps.drop ((scanTo t₁ c u ps).2 - u)) := by
  intro ps
  induction ps with
  | nil =>
    intro c u _ hfound
    simp only [scanTo] at hfound ⊢
    subst hfound
    simp [scanTo]
  | cons p rest ih =>
    intro c u hct hfound
    obtain ⟨a, b⟩ := p
    by_cases hc : c = t₁
    · have h1 : scanTo t₁ c u ((a, b) :: rest) = (t₁, u) := by
        rw [scanTo, if_pos hc, hc]
      rw [h1]
      simp only [Nat.sub_self, List.drop_zero]
      rw [hc]
    · have hct' : c < t₁ := lt_of_le_of_ne hct hc
      have hc2 : ¬(c = t₂) := by omega
      rw [scanTo, if_neg hc2]
      rw [scanTo, if_neg hc] at hfound
      have hstep : (if a ≠ b then c + 1 else c) ≤ t₁ := by split <;> omega
      have hu1 : u + 1 ≤ (scanTo t₁ (if a ≠ b then c + 1 else c) (u + 1) rest).2 :=
        scanTo_u_le _ _ _ _
      rw [ih _ (u + 1) hstep hfound]
      have hfr : scanTo t₁ c u ((a, b) :: rest)
          = scanTo t₁ (if a ≠ b then c + 1 else c) (u + 1) rest := by
        rw [scanTo, if_neg hc]
      rw [hfr]
      congr 1
      have hdrop : (scanTo t₁ (if a ≠ b then c + 1 else c) (u + 1) rest).2 - u
          = ((scanTo t₁ (if a ≠ b then c + 1 else c) (u + 1) rest).2 - (u + 1)) + 1 := by
        omega
      rw [hdrop]
      rfl

theorem decompress_fst (offset limit : Nat) (s : List Nat) :
    (decompress offset limit s).1 = specScan offset s := rfl

theorem decompress_snd (offset limit : Nat) (s : List Nat) :
    (decompress offset limit s).2
      = finishScan limit (scanTo limit offset (specScan offset s)
          ((pairs s).drop (specScan offset s))) := rfl

/-- If the offset target is found strictly inside the compressed length,
the continued limit scan agrees with a restarted scan. -/
theorem decompress_snd_eq_specScan (offset limit : Nat) (s : List Nat)
    (h₁ : offset ≤ limit) (hofs : offset < runCount s) :
    (decompress offset limit s).2 = specScan limit s := by
  have hf := scanTo_found s offset hofs
  have hso : specScan offset s = (scanTo offset 0 0 (pairs s)).2 := by
    rw [specScan, finishScan, if_neg (by simp [hf])]
  have hcont := scanTo_continue offset limit h₁ (pairs s) 0 0 (Nat.zero_le _) hf
  rw [Nat.sub_zero] at hcont
  rw [decompress_snd, hso, ← hcont, specScan]

/-- Claim C1: under the contract preconditions
(`offset ≤ limit ≤ runCount sequence`), `decompress` computes both mapped
positions exactly as the restarted pair walk of the specification does;
in particular the limit, found by continuing the offset scan, agrees
with restarting the scan. -/
theorem decompress_eq_specScan (offset limit : Nat) (sequence : List Nat)
    (h₁ : offset ≤ limit) (h₂ : limit ≤ runCount sequence) :
    decompress offset limit sequence = (specScan offset sequence, specScan limit sequence) := by
  by_cases hofs : offset < runCount sequence
  · exact Prod.ext (decompress_fst _ _ _) (decompress_snd_eq_specScan _ _ _ h₁ hofs)
  · have heq : offset = limit := le_antisymm h₁ (le_trans h₂ (le_of_not_lt hofs))
    subst heq
    refine Prod.ext (decompress_fst _ _ _) ?_
    have hlim : ∀ ps : List (Nat × Nat), ∀ u, scanTo offset offset u ps = (offset, u) := by
      intro ps u
      cases ps with
      | nil => rfl
      | cons p rest => obtain ⟨a, b⟩ := p; rw [scanTo, if_pos rfl]
    rw [decompress_snd, hlim, specScan]
    by_cases hfound : (scanTo offset 0 0 (pairs sequence)).1 = offset <;>
      simp [finishScan, hfound]

/-- The slice of the sequence between two mapped positions contains
exactly `l - o` runs. -/
theorem runCount_slice (s : List Nat) :
    ∀ o l, o ≤ l → l ≤ runCount s →
      runCount ((s.drop (specScan o s)).take (specScan l s - specScan o s)) = l - o := by
  induction s with
  | nil =>
    intro o l hol hl
    simp only [runCount_nil, Nat.le_zero] at hl
    subst hl
    simp only [Nat.le_zero] at hol
    subst hol
    simp
  | cons a rest ih =>
    intro o l hol hl
    cases rest with
    | nil =>
      simp only [runCount_singleton] at hl
      interval_cases l
      · interval_cases o
        simp
      · interval_cases o <;> simp [specScan_one, List.drop, List.take]
    | cons b rest' =>
      rw [runCount_cons_cons] at hl
      cases o with
      | zero =>
        cases l with
        | zero => simp
        | succ l' =>
          rw [specScan_zero, specScan_cons_cons]
          simp only [List.drop_zero, Nat.sub_zero]
          by_cases hab : a = b
          · rw [if_pos hab]
            rw [if_pos hab] at hl
            have hl' : l' + 1 ≤ runCount (b :: rest') := by omega
            have hpos : 1 ≤ specScan (l' + 1) (b :: rest') := by
              cases rest' with
              | nil => rw [specScan_one]
              | cons c rest'' => rw [specScan_cons_cons]; omega
            obtain ⟨m, hm⟩ : ∃ m, specScan (l' + 1) (b :: rest') = m + 1 :=
              ⟨specScan (l' + 1) (b :: rest') - 1, by omega⟩
            have hIH := ih 0 (l' + 1) (Nat.zero_le _) hl'
            rw [specScan_zero, Nat.sub_zero, List.drop_zero, hm, List.take_succ_cons] at hIH
            rw [Nat.add_comm 1 (specScan (l' + 1) (b :: rest')), hm, List.take_succ_cons,
              List.take_succ_cons, runCount_cons_cons, if_pos hab]
            omega
          · rw [if_neg hab]
            rw [if_neg hab] at hl
            have hl' : l' ≤ runCount (b :: rest') := by omega
            cases l' with
            | zero => simp
            | succ l'' =>
              have hpos : 1 ≤ specScan (l'' + 1) (b :: rest') := by
                cases rest' with
                | nil => rw [specScan_one]
                | cons c rest'' => rw [specScan_cons_cons]; omega
              obtain ⟨m, hm⟩ : ∃ m, specScan (l'' + 1) (b :: rest') = m + 1 :=
                ⟨specScan (l'' + 1) (b :: rest') - 1, by omega⟩
              have hIH := ih 0 (l'' + 1) (Nat.zero_le _) hl'
              rw [specScan_zero, Nat.sub_zero, List.drop_zero, hm, List.take_succ_cons] at hIH
              rw [Nat.add_comm 1 (specScan (l'' + 1) (b :: rest')), hm, List.take_succ_cons,
                List.take_succ_cons, runCount_cons_cons, if_neg hab]
              omega
      | succ o' =>
        have hlpos : 1 ≤ l := by omega
        obtain ⟨l', rfl⟩ := Nat.exists_eq_add_of_le hlpos
        rw [Nat.add_comm 1 l']
        rw [specScan_cons_cons, specScan_cons_cons]
        by_cases hab : a = b
        · rw [if_pos hab, if_pos hab]
          rw [if_pos hab] at hl
          have h1 : l' + 1 ≤ runCount (b :: rest') := by omega
          have := ih (o' + 1) (l' + 1) (by omega) h1
          have hdrop : (a :: b :: rest').drop (1 + specScan (o' + 1) (b :: rest'))
              = (b :: rest').drop (specScan (o' + 1) (b :: rest')) := by
            rw [show 1 + specScan (o' + 1) (b :: rest')
                = specScan (o' + 1) (b :: rest') + 1 from by omega]
            rfl
          rw [hdrop,
            show 1 + specScan (l' + 1) (b :: rest') - (1 + specScan (o' + 1) (b :: rest'))
              = specScan (l' + 1) (b :: rest') - specScan (o' + 1) (b :: rest') from by omega,
            this]
        · rw [if_neg hab, if_neg hab]
          rw [if_neg hab] at hl
          have h1 : l' ≤ runCount (b :: rest') := by omega
          have := ih o' l' (by omega) h1
          have hdrop : (a :: b :: rest').drop (1 + specScan o' (b :: rest'))
              = (b :: rest').drop (specScan o' (b :: rest')) := by
            rw [show 1 + specScan o' (b :: rest')
                = specScan o' (b :: rest') + 1 from by omega]
            rfl
          rw [hdrop,
            show 1 + specScan l' (b :: rest') - (1 + specScan o' (b :: rest'))
              = specScan l' (b :: rest') - specScan o' (b :: rest') from by omega,
            this]
          omega

/-- Claim C2: for valid `(o, l)`, the slice of the sequence between the
two mapped positions of `decompress` contains exactly `l - o` runs. -/
theorem runCount_decompress_slice (sequence : List Nat) (o l : Nat)
    (h₁ : o ≤ l) (h₂ : l ≤ runCount sequence) :
    runCount ((sequence.drop (decompress o l sequence).1).take
        ((decompress o l sequence).2 - (decompress o l sequence).1)) = l - o := by
  rw [decompress_eq_specScan o l sequence h₁ h₂]
  exact runCount_slice sequence o l h₁ h₂

/-- Witness for C1 at a concrete input (the repository's own test data). -/
theorem decompress_eq_specScan_witness :
    2 ≤ 4 ∧ 4 ≤ runCount [0, 0, 1, 1, 2, 3, 3, 3, 4, 5] ∧
      decompress 2 4 [0, 0, 1, 1, 2, 3, 3, 3, 4, 5]
        = (specScan 2 [0, 0, 1, 1, 2, 3, 3, 3, 4, 5],
           specScan 4 [0, 0, 1, 1, 2, 3, 3, 3, 4, 5]) :=
  ⟨by decide, by decide,
    decompress_eq_specScan 2 4 [0, 0, 1, 1, 2, 3, 3, 3, 4, 5] (by decide) (by decide)⟩

/-- Witness for C2 at a concrete input. -/
theorem runCount_decompress_slice_witness :
    2 ≤ 4 ∧ 4 ≤ runCount [0, 0, 1, 1, 2, 3, 3, 3, 4, 5] ∧
      runCount (([0, 0, 1, 1, 2, 3, 3, 3, 4, 5].drop
          (decompress 2 4 [0, 0, 1, 1, 2, 3, 3, 3, 4, 5]).1).take
        ((decompress 2 4 [0, 0, 1, 1, 2, 3, 3, 3, 4, 5]).2
          - (decompress 2 4 [0, 0, 1, 1, 2, 3, 3, 3, 4, 5]).1)) = 4 - 2 :=
  ⟨by decide, by decide,
    runCount_decompress_slice [0, 0, 1, 1, 2, 3, 3, 3, 4, 5] 2 4 (by decide) (by decide)⟩

/-- Counterexample to claim C7 as stated: on `[0]` (one run), the
out-of-range limit `2` maps to `2`, not to `len(seq) = 1`. -/
theorem decompress_out_of_range_cex :
    runCount [0] < 2 ∧ decompress 1 2 [0] = (1, 2) ∧
      (decompress 1 2 [0]).2 ≠ List.length [0] :=
  ⟨by decide, by decide, by decide⟩

/-- Amended claim C7: `decompress` is total; on a nonempty sequence an
out-of-range offset maps to `len(seq)`, and an out-of-range limit maps
to `len(seq)` provided the offset is strictly within the compressed
length (number of runs). -/
theorem decompress_out_of_range (sequence : List Nat) (offset limit : Nat)
    (hne : sequence ≠ []) :
    (runCount sequence < offset → (decompress offset limit sequence).1 = sequence.length) ∧
    (runCount sequence < limit → offset < runCount sequence →
      (decompress offset limit sequence).2 = sequence.length) := by
  constructor
  · intro ho
    rw [decompress_fst]
    exact specScan_out_of_range sequence offset hne (le_of_lt ho)
  · intro hl hofs
    rw [decompress_snd_eq_specScan offset limit sequence (by omega) hofs]
    exact specScan_out_of_range sequence limit hne (le_of_lt hl)

/-- Witness for the amended C7. -/
theorem decompress_out_of_range_witness :
    ([0, 0, 1] : List Nat) ≠ [] ∧
      (runCount [0, 0, 1] < 9 → (decompress 9 9 [0, 0, 1]).1 = 3) ∧
      (runCount [0, 0, 1] < 9 → 1 < runCount [0, 0, 1] →
        (decompress 1 9 [0, 0, 1]).2 = 3) :=
  ⟨by decide, (decompress_out_of_range [0, 0, 1] 9 9 (by decide)).1,
    (decompress_out_of_range [0, 0, 1] 1 9 (by decide)).2⟩

/-! ## Section 2: `LineContext` and the direct-successor predicate
(`src/wtdbg2_ctg_lay/mod.rs`) -/

/-- `LineContext` from `src/wtdbg2_ctg_lay/mod.rs`.  The source uses
`i64` fields with `-1` as the "none yet" sentinel; modelled as `Int`. -/
structure LineContext where
  contigIndex : Int
  edgeIndex : Int
  alignmentIndex : Int
  previousContigEdgeCount : Int
  previousEdgeAlignmentCount : Int
deriving DecidableEq

/-- The `Default` impl for `LineContext`. -/
def defaultContext : LineContext :=
  ⟨-1, -1, -1, 0, 0⟩

/-- `LineContext::directly_precedes`, translated branch by branch from
the source (lines 202–227). -/
def directlyPrecedes (a b : LineContext) : Bool :=
  if a.contigIndex ≠ b.contigIndex then
    if a.contigIndex ≠ b.contigIndex - 1 then false
    else decide (a.edgeIndex = b.previousContigEdgeCount - 1
      ∧ a.alignmentIndex = b.previousEdgeAlignmentCount - 1)
  else if a.edgeIndex ≠ b.edgeIndex then
    if a.edgeIndex ≠ b.edgeIndex - 1 then false
    else decide (a.alignmentIndex = b.previousEdgeAlignmentCount - 1 ∨ a.edgeIndex = -1)
  else if a.alignmentIndex ≠ b.alignmentIndex then
    decide (a.alignmentIndex = b.alignmentIndex - 1)
  else false

/-- Case (1) of claim C5: next contig. -/
def claimCase1 (a b : LineContext) : Prop :=
  b.contigIndex = a.contigIndex + 1
    ∧ a.edgeIndex + 1 = b.previousContigEdgeCount
    ∧ a.alignmentIndex + 1 = b.previousEdgeAlignmentCount

/-- Case (2) of claim C5 as stated: next edge within the same contig. -/
def claimCase2 (a b : LineContext) : Prop :=
  b.contigIndex = a.contigIndex ∧ b.edgeIndex = a.edgeIndex + 1
    ∧ a.alignmentIndex + 1 = b.previousEdgeAlignmentCount

/-- Case (2) amended: the source additionally accepts the successor when
`a.edgeIndex = -1`, i.e. when `a` is the contig header itself. -/
def amendedCase2 (a b : LineContext) : Prop :=
  b.contigIndex = a.contigIndex ∧ b.edgeIndex = a.edgeIndex + 1
    ∧ (a.alignmentIndex + 1 = b.previousEdgeAlignmentCount ∨ a.edgeIndex = -1)

/-- Case (3) of claim C5: next alignment within the same edge. -/
def claimCase3 (a b : LineContext) : Prop :=
  b.contigIndex = a.contigIndex ∧ b.edgeIndex = a.edgeIndex
    ∧ b.alignmentIndex = a.alignmentIndex + 1

/-- Exactly one of three propositions holds. -/
def exactlyOne (p q r : Prop) : Prop :=
  (p ∧ ¬q ∧ ¬r) ∨ (¬p ∧ q ∧ ¬r) ∨ (¬p ∧ ¬q ∧ r)

/-- Claim C5's characterization of `directly_precedes`, verbatim. -/
def claimPrecedes (a b : LineContext) : Prop :=
  exactlyOne (claimCase1 a b) (claimCase2 a b) (claimCase3 a b)

instance (a b : LineContext) : Decidable (claimPrecedes a b) := by
  unfold claimPrecedes exactlyOne claimCase1 claimCase2 claimCase3
  infer_instance

/-- Counterexample to claim C5: when `a` is a contig header
(`edgeIndex = -1`) and `b` its first edge with a `previousEdgeAlignmentCount`
that does not match, the source accepts the pair (via the
`self.edge_index == -1` escape) while the claim's characterization
rejects it. -/
theorem directlyPrecedes_cex :
    directlyPrecedes ⟨0, -1, -1, 0, 0⟩ ⟨0, 0, -1, 0, 5⟩ = true
      ∧ ¬claimPrecedes ⟨0, -1, -1, 0, 0⟩ ⟨0, 0, -1, 0, 5⟩ := by
  constructor
  · decide
  · decide

/-- Amended claim C5: `directly_precedes` holds iff exactly one of the
three cases holds, where case (2) additionally accepts `a.edgeIndex = -1`
(the predecessor being the contig header) in place of the
alignment-count condition. -/
theorem directlyPrecedes_iff (a b : LineContext) :
    directlyPrecedes a b = true
      ↔ exactlyOne (claimCase1 a b) (amendedCase2 a b) (claimCase3 a b) := by
  obtain ⟨ac, ae, aa, apc, apa⟩ := a
  obtain ⟨bc, be, ba, bpc, bpa⟩ := b
  unfold directlyPrecedes exactlyOne claimCase1 amendedCase2 claimCase3
  simp only
  split_ifs <;> simp_all <;> omega

/-! ## Section 3: the layout-line codec (`src/wtdbg2_ctg_lay/mod.rs`)

Text is modelled as `List Char`; read ids, which the serializer passes
through `String::from_utf8`, are modelled as `List Char` directly. -/

/-- `Wtdbg2CtgLayLine` from `src/wtdbg2_ctg_lay/mod.rs`. -/
inductive Wtdbg2CtgLayLine where
  | contig (name : List Char) (nodeCount : Nat) (length : Nat)
  | edge (offset : Nat) (fromNode : List Char) (fromDirection : Bool)
      (toNode : List Char) (toDirection : Bool)
  | alignment (readId : List Char) (direction : Bool)
      (offset : Nat) (length : Nat) (originalLength : Nat)
deriving DecidableEq

/-- `2 ^ 64`, the number of values of `u64` (and of `usize` on the 64-bit
targets this crate is built for). -/
def u64Size : Nat := 2 ^ 64

/-- Decimal digit to character. -/
def digitChar (d : Nat) : Char :=
  match d with
  | 0 => '0'
  | 1 => '1'
  | 2 => '2'
  | 3 => '3'
  | 4 => '4'
  | 5 => '5'
  | 6 => '6'
  | 7 => '7'
  | 8 => '8'
  | _ => '9'

/-- Decimal digits of `n`, most significant first, with structural fuel. -/
def natReprAux : Nat → Nat → List Char
  | 0, _ => []
  | _ + 1, 0 => []
  | fuel + 1, n + 1 => natReprAux fuel ((n + 1) / 10) ++ [digitChar ((n + 1) % 10)]

/-- Rust's `Display` for unsigned integers: decimal digits, `"0"` for zero. -/
def natRepr (n : Nat) : List Char :=
  if n = 0 then ['0'] else natReprAux n n

/-- The digit-accumulating loop of Rust's `u64::from_str`: rejects
non-digits and overflow past `u64::MAX`. -/
def parseGo (acc : Nat) : List Char → Option Nat
  | [] => some acc
  | c :: rest =>
    if 48 ≤ c.toNat ∧ c.toNat ≤ 57 then
      if acc * 10 + (c.toNat - 48) < u64Size then parseGo (acc * 10 + (c.toNat - 48)) rest
      else none
    else none

/-- Rust's `u64::from_str`: optional leading `+`, then a nonempty digit
string whose value fits in 64 bits. -/
def parseU64 (s : List Char) : Option Nat :=
  match s with
  | [] => none
  | c :: rest =>
    if c = '+' then (if rest = [] then none else parseGo 0 rest)
    else parseGo 0 (c :: rest)

/-- Rust's `str::split` on a one-character separator. -/
def splitChar (sep : Char) : List Char → List (List Char)
  | [] => [[]]
  | c :: rest =>
    match splitChar sep rest with
    | [] => [[]]
    | g :: gs => if c = sep then [] :: g :: gs else (c :: g) :: gs

/-- Direction serialization: `+` for forwards, `-` for backwards. -/
def dirChars (d : Bool) : List Char :=
  if d then ['+'] else ['-']

/-- Direction parsing; anything but `+`/`-` is fatal. -/
def parseDirection (s : List Char) : Option Bool :=
  if s = ['+'] then some true else if s = ['-'] then some false else none

/-- `ToString for Wtdbg2CtgLayLine` (source lines 159–191).  Note the
contig arm uses SPACE separators (`">{name} nodes={n} len={l}"`), while
edges and alignments use TABs. -/
def formatLine : Wtdbg2CtgLayLine → List Char
  | .contig name nodeCount length =>
    '>' :: (name ++ ' ' :: (['n', 'o', 'd', 'e', 's', '='] ++ natRepr nodeCount
      ++ ' ' :: (['l', 'e', 'n', '='] ++ natRepr length)))
  | .edge offset fromNode fromDirection toNode toDirection =>
    'E' :: '\t' :: (natRepr offset ++ '\t' :: (fromNode ++ '\t' :: (dirChars fromDirection
      ++ '\t' :: (toNode ++ '\t' :: dirChars toDirection))))
  | .alignment readId direction offset length _ =>
    'S' :: '\t' :: (readId ++ '\t' :: (dirChars direction ++ '\t' :: (natRepr offset
      ++ '\t' :: (natRepr length ++ ['\t']))))

/-- `FromStr for Wtdbg2CtgLayLine` (source lines 38–127).  The contig arm
splits the remainder on SPACE and slices the second and third columns at
byte offsets 6 and 4 (`nodes=`/`len=`) without checking the field names;
the edge and alignment arms split on TAB, with the first (empty) column
discarded.  Every `unwrap`/`panic!` is `none`. -/
def parseLine (s : List Char) : Option Wtdbg2CtgLayLine :=
  match s with
  | '>' :: rest =>
    match splitChar ' ' rest with
    | name :: col₂ :: col₃ :: _ =>
      if col₂.length < 6 ∨ col₃.length < 4 then none
      else
        match parseU64 (col₂.drop 6), parseU64 (col₃.drop 4) with
        | some nodeCount, some length => some (.contig name nodeCount length)
        | _, _ => none
    | _ => none
  | 'E' :: rest =>
    match splitChar '\t' rest with
    | _ :: offS :: fromN :: fromD :: toN :: toD :: _ =>
      match parseU64 offS, parseDirection fromD, parseDirection toD with
      | some offset, some fd, some td => some (.edge offset fromN fd toN td)
      | _, _, _ => none
    | _ => none
  | 'S' :: rest =>
    match splitChar '\t' rest with
    | _ :: readId :: dirS :: offS :: lenS :: _ =>
      match parseDirection dirS, parseU64 offS, parseU64 lenS with
      | some direction, some offset, some length =>
        some (.alignment readId direction offset length length)
      | _, _, _ => none
    | _ => none
  | _ => none

theorem digitChar_toNat (d : Nat) (h : d < 10) : (digitChar d).toNat = 48 + d := by
  interval_cases d <;> rfl

/-- Every character emitted by `natReprAux` is a decimal digit. -/
theorem natReprAux_digits (fuel : Nat) :
    ∀ n c, c ∈ natReprAux fuel n → 48 ≤ c.toNat ∧ c.toNat ≤ 57 := by
  induction fuel with
  | zero => intro n c h; simp [natReprAux] at h
  | succ fuel ih =>
    intro n c h
    cases n with
    | zero => simp [natReprAux] at h
    | succ n =>
      rw [natReprAux, List.mem_append] at h
      rcases h with h | h
      · exact ih _ c h
      · simp only [List.mem_singleton] at h
        subst h
        rw [digitChar_toNat _ (Nat.mod_lt _ (by omega))]
        have := Nat.mod_lt (n + 1) (show 0 < 10 from by omega)
        omega

/-- Every character of `natRepr n` is a decimal digit. -/
theorem natRepr_digits (n : Nat) :
    ∀ c, c ∈ natRepr n → 48 ≤ c.toNat ∧ c.toNat ≤ 57 := by
  intro c h
  rw [natRepr] at h
  split at h
  · simp at h
    subst h
    decide
  · exact natReprAux_digits n n c h

theorem parseGo_append (xs ys : List Char) :
    ∀ acc, parseGo acc (xs ++ ys) = (parseGo acc xs).bind fun a => parseGo a ys := by
  induction xs with
  | nil => intro acc; simp [parseGo]
  | cons c rest ih =>
    intro acc
    rw [List.cons_append, parseGo, parseGo]
    split
    · split
      · exact ih _
      · rfl
    · rfl

/-- The accumulator loop reconstructs the number printed by `natReprAux`
provided the final value fits in 64 bits. -/
theorem parseGo_natReprAux (fuel : Nat) :
    ∀ n acc, n ≤ fuel →
      acc * 10 ^ (natReprAux fuel n).length + n < u64Size →
      parseGo acc (natReprAux fuel n) = some (acc * 10 ^ (natReprAux fuel n).length + n) := by
  induction fuel with
  | zero =>
    intro n acc hn _
    interval_cases n
    simp [natReprAux, parseGo]
  | succ fuel ih =>
    intro n acc hn hbound
    cases n with
    | zero => simp [natReprAux, parseGo]
    | succ n =>
      have hdiv : (n + 1) / 10 ≤ fuel := by
        have := Nat.div_lt_self (show 0 < n + 1 from by omega) (show 1 < 10 from by omega)
        omega
      have hlen : (natReprAux (fuel + 1) (n + 1)).length
          = (natReprAux fuel ((n + 1) / 10)).length + 1 := by
        rw [natReprAux, List.length_append, List.length_singleton]
      have hmod := Nat.mod_lt (n + 1) (show 0 < 10 from by omega)
      have hdm := Nat.div_add_mod (n + 1) 10
      have hrepr : natReprAux (fuel + 1) (n + 1)
          = natReprAux fuel ((n + 1) / 10) ++ [digitChar ((n + 1) % 10)] := rfl
      rw [hrepr, parseGo_append]
      rw [hrepr] at hbound
      rw [List.length_append, List.length_singleton, pow_succ] at hbound ⊢
      have hbound' : acc * 10 ^ (natReprAux fuel ((n + 1) / 10)).length + (n + 1) / 10
          < u64Size := by
        have h1 : acc * 10 ^ (natReprAux fuel ((n + 1) / 10)).length
            ≤ acc * (10 ^ (natReprAux fuel ((n + 1) / 10)).length * 10) :=
          Nat.mul_le_mul_left acc (Nat.le_mul_of_pos_right _ (by omega))
        have h2 : (n + 1) / 10 ≤ n + 1 := Nat.div_le_self _ _
        linarith
      rw [ih _ acc hdiv hbound']
      have hdig := digitChar_toNat ((n + 1) % 10) hmod
      rw [Option.some_bind, parseGo]
      rw [if_pos (by omega : 48 ≤ (digitChar ((n + 1) % 10)).toNat
        ∧ (digitChar ((n + 1) % 10)).toNat ≤ 57)]
      have hval : (acc * 10 ^ (natReprAux fuel ((n + 1) / 10)).length + (n + 1) / 10) * 10
          + ((digitChar ((n + 1) % 10)).toNat - 48)
          = acc * (10 ^ (natReprAux fuel ((n + 1) / 10)).length * 10) + (n + 1) := by
        rw [hdig]
        have h48 : 48 + (n + 1) % 10 - 48 = (n + 1) % 10 := by omega
        rw [h48]
        linarith
      rw [if_pos (by omega), parseGo, hval]

/-- `u64` round-trip: parsing the decimal rendering of `n < 2^64`
recovers `n`. -/
theorem parseU64_natRepr (n : Nat) (h : n < u64Size) : parseU64 (natRepr n) = some n := by
  by_cases h0 : n = 0
  · subst h0
    decide
  · have hfuel : 1 ≤ n := by omega
    have hne : natReprAux n n ≠ [] := by
      obtain ⟨m, rfl⟩ := Nat.exists_eq_add_of_le hfuel
      rw [Nat.add_comm] at *
      cases m with
      | zero => simp [natReprAux]
      | succ m => simp [natReprAux]
    rw [natRepr, if_neg h0]
    obtain ⟨c, cs, hcs⟩ := List.exists_cons_of_ne_nil hne
    have hcdig : 48 ≤ c.toNat ∧ c.toNat ≤ 57 := by
      apply natReprAux_digits n n
      rw [hcs]
      exact List.mem_cons_self _ _
    have hplus : c ≠ '+' := by
      intro hc
      subst hc
      revert hcdig
      decide
    have := parseGo_natReprAux n n 0 (le_refl n) (by simpa using h)
    rw [hcs, parseU64, if_neg hplus, ← hcs, this]
    simp

theorem splitChar_ne_nil (sep : Char) (l : List Char) : splitChar sep l ≠ [] := by
  cases l with
  | nil => simp [splitChar]
  | cons c rest =>
    rw [splitChar]
    split
    · simp
    · split <;> simp

theorem splitChar_no_sep (sep : Char) (l : List Char) (h : sep ∉ l) :
    splitChar sep l = [l] := by
  induction l with
  | nil => rfl
  | cons c rest ih =>
    simp only [List.mem_cons, not_or] at h
    rw [splitChar, ih h.2]
    show (if c = sep then [[], rest] else [c :: rest]) = [c :: rest]
    rw [if_neg (fun hc => h.1 hc.symm)]

theorem splitChar_append_sep (sep : Char) (xs ys : List Char) (h : sep ∉ xs) :
    splitChar sep (xs ++ sep :: ys) = xs :: splitChar sep ys := by
  induction xs with
  | nil =>
    rw [List.nil_append, splitChar]
    cases hys : splitChar sep ys with
    | nil => exact absurd hys (splitChar_ne_nil sep ys)
    | cons g gs =>
      show (if sep = sep then [] :: g :: gs else (sep :: g) :: gs) = [] :: g :: gs
      rw [if_pos rfl]
  | cons c rest ih =>
    simp only [List.mem_cons, not_or] at h
    rw [List.cons_append, splitChar, ih h.2]
    show (if c = sep then [] :: rest :: splitChar sep ys
        else (c :: rest) :: splitChar sep ys) = (c :: rest) :: splitChar sep ys
    rw [if_neg (fun hc => h.1 hc.symm)]

/-- Counterexample to claim C8: the contig serializer emits SPACE
separators, not TABs, and the parser rejects the TAB-separated contig
shape the claim describes. -/
theorem contig_tab_cex :
    formatLine (.contig ['c', '1'] 2 0)
        ≠ ['>', 'c', '1', '\t', 'n', 'o', 'd', 'e', 's', '=', '2',
           '\t', 'l', 'e', 'n', '=', '0']
      ∧ parseLine ['>', 'c', '1', '\t', 'n', 'o', 'd', 'e', 's', '=', '2',
           '\t', 'l', 'e', 'n', '=', '0'] = none := by
  constructor
  · decide
  · decide

/-- Amended claim C8: contig header lines are SPACE-separated: a contig
serializes as `>NAME nodes=<u64> len=<u64>`, and `parse_line` recognises
a contig line of that space-separated shape. -/
theorem contig_line_space_separated (name : List Char) (nodeCount length : Nat)
    (hname : ' ' ∉ name) (hn : nodeCount < u64Size) (hl : length < u64Size) :
    formatLine (.contig name nodeCount length)
        = '>' :: (name ++ ' ' :: (['n', 'o', 'd', 'e', 's', '='] ++ natRepr nodeCount
            ++ ' ' :: (['l', 'e', 'n', '='] ++ natRepr length)))
      ∧ parseLine (formatLine (.contig name nodeCount length))
        = some (.contig name nodeCount length) := by
  have hnodig : ∀ m : Nat, ' ' ∉ natRepr m := by
    intro m hc
    have := natRepr_digits m ' ' hc
    revert this
    decide
  have hcol₂ : ' ' ∉ ['n', 'o', 'd', 'e', 's', '='] ++ natRepr nodeCount := by
    intro hc
    rcases List.mem_append.1 hc with hc | hc
    · revert hc; decide
    · exact hnodig _ hc
  have hcol₃ : ' ' ∉ ['l', 'e', 'n', '='] ++ natRepr length := by
    intro hc
    rcases List.mem_append.1 hc with hc | hc
    · revert hc; decide
    · exact hnodig _ hc
  refine ⟨rfl, ?_⟩
  show parseLine ('>' :: _) = _
  rw [parseLine, splitChar_append_sep ' ' name _ hname,
    splitChar_append_sep ' ' _ _ hcol₂, splitChar_no_sep ' ' _ hcol₃]
  dsimp only
  rw [if_neg (by simp)]
  rw [show (6 : Nat) = (['n', 'o', 'd', 'e', 's', '='] : List Char).length from rfl,
    List.drop_left]
  rw [show (4 : Nat) = (['l', 'e', 'n', '='] : List Char).length from rfl, List.drop_left]
  rw [parseU64_natRepr _ hn, parseU64_natRepr _ hl]

/-- Witness for the amended C8 at a concrete contig line. -/
theorem contig_line_space_separated_witness :
    (' ' ∉ (['c', '1'] : List Char))
      ∧ parseLine (formatLine (.contig ['c', '1'] 2 0))
        = some (.contig ['c', '1'] 2 0) :=
  ⟨by decide, (contig_line_space_separated ['c', '1'] 2 0 (by decide) (by decide)
    (by decide)).2⟩

/-! ## Section 4: the FASTA sequence index (`src/fasta_sequence_index/mod.rs`)

The scratch file is a byte list; the id map is an association list from
read id to `FileSlice { offset, len }`.  Both build modes perform the
same per-record fold (the parallel mode drains a FIFO queue in input
order), so one fold models both. -/

/-- `HashMap::get` over the id map. -/
def findSlice : List (List Nat × Nat × Nat) → List Nat → Option (Nat × Nat)
  | [], _ => none
  | (id, s) :: rest, key => if id = key then some s else findSlice rest key

/-- The per-record fold of `FastaSequenceIndex::build` /
`build_parallel`: append the sequence plus a newline sentinel to the
scratch bytes, record `id ↦ (offset, len)`, advance `offset` by
`len + 1`.  A duplicate id fails the `assert!(previous.is_none())` and
is fatal. -/
def buildAux : List (List Nat × Nat × Nat) → List Nat → Nat →
    List (List Nat × List Nat) → Option (List (List Nat × Nat × Nat) × List Nat)
  | idx, scratch, _, [] => some (idx, scratch)
  | idx, scratch, offset, (id, seq) :: rest =>
    if (findSlice idx id).isSome then none
    else buildAux (idx ++ [(id, offset, seq.length)]) (scratch ++ seq ++ [10])
      (offset + seq.length + 1) rest

/-- `FastaSequenceIndex` build from an empty index and scratch file. -/
def buildIndex (records : List (List Nat × List Nat)) :
    Option (List (List Nat × Nat × Nat) × List Nat) :=
  buildAux [] [] 0 records

/-- `FastaSequenceIndex::get_sequence`: look the id up (a missing id is
fatal), then read exactly `len` bytes at `offset` (a short positional
read is fatal). -/
def getSequence (idx : List (List Nat × Nat × Nat)) (scratch : List Nat)
    (id : List Nat) : Option (List Nat) :=
  match findSlice idx id with
  | none => none
  | some (offset, len) =>
    if offset + len ≤ scratch.length then some ((scratch.drop offset).take len) else none

theorem findSlice_eq_none_iff (l : List (List Nat × Nat × Nat)) (key : List Nat) :
    findSlice l key = none ↔ key ∉ l.map Prod.fst := by
  induction l with
  | nil => simp [findSlice]
  | cons p rest ih =>
    obtain ⟨id, s⟩ := p
    rw [findSlice]
    by_cases hid : id = key
    · subst hid
      simp
    · rw [if_neg hid, ih]
      simp only [List.map_cons, List.mem_cons, not_or]
      exact ⟨fun h => ⟨fun hk => hid hk.symm, h⟩, fun h => h.2⟩

theorem findSlice_append (l₁ l₂ : List (List Nat × Nat × Nat)) (key : List Nat) :
    findSlice (l₁ ++ l₂) key
      = match findSlice l₁ key with
        | some v => some v
        | none => findSlice l₂ key := by
  induction l₁ with
  | nil => simp [findSlice]
  | cons p rest ih =>
    obtain ⟨id, s⟩ := p
    rw [List.cons_append, findSlice, findSlice]
    split
    · rfl
    · exact ih

/-- Main inductive content of the index build: on pairwise-distinct ids
the build succeeds, old map entries survive, the scratch bytes only
grow, and every record of the batch is retrievable at its recorded
slice. -/
theorem buildAux_get (records : List (List Nat × List Nat)) :
    ∀ idx scratch offset, offset = scratch.length →
      (idx.map Prod.fst ++ records.map Prod.fst).Nodup →
      ∃ idx' scratch',
        buildAux idx scratch offset records = some (idx', scratch')
        ∧ (∀ key v, findSlice idx key = some v → findSlice idx' key = some v)
        ∧ (∃ ext, scratch' = scratch ++ ext)
        ∧ (∀ id seq, (id, seq) ∈ records →
            ∃ off, findSlice idx' id = some (off, seq.length)
              ∧ off + seq.length ≤ scratch'.length
              ∧ (scratch'.drop off).take seq.length = seq) := by
  induction records with
  | nil =>
    intro idx scratch offset _ _
    exact ⟨idx, scratch, rfl, fun _ _ h => h, ⟨[], by simp⟩, by simp⟩
  | cons record rest ih =>
    intro idx scratch offset hoff hnd
    obtain ⟨id, seq⟩ := record
    have hid : id ∉ idx.map Prod.fst := by
      intro hmem
      have := (List.nodup_append.1 hnd).2.2
      exact this hmem (by simp)
    have hguard : ¬(findSlice idx id).isSome = true := by
      rw [(findSlice_eq_none_iff idx id).2 hid]
      simp
    have hnd₂ : ((idx ++ [(id, offset, seq.length)]).map Prod.fst
        ++ rest.map Prod.fst).Nodup := by
      have : (idx ++ [(id, offset, seq.length)]).map Prod.fst
          = idx.map Prod.fst ++ [id] := by simp
      rw [this, List.append_assoc]
      simpa using hnd
    have hoff₂ : offset + seq.length + 1 = (scratch ++ seq ++ [10]).length := by
      simp [hoff]
      omega
    obtain ⟨idx', scratch', hrun, hpres, ⟨ext, hext⟩, hrec⟩ :=
      ih (idx ++ [(id, offset, seq.length)]) (scratch ++ seq ++ [10])
        (offset + seq.length + 1) hoff₂ hnd₂
    have hext' : scratch' = scratch ++ (seq ++ ([10] ++ ext)) := by
      rw [hext, List.append_assoc, List.append_assoc]
    refine ⟨idx', scratch', ?_, ?_, ⟨seq ++ ([10] ++ ext), hext'⟩, ?_⟩
    · rw [buildAux, if_neg hguard]
      exact hrun
    · intro key v hkey
      apply hpres
      rw [findSlice_append, hkey]
    · intro id₀ seq₀ hmem
      rcases List.mem_cons.1 hmem with hmem | hmem
      · have h1 : id₀ = id := congrArg Prod.fst hmem
        have h2 : seq₀ = seq := congrArg Prod.snd hmem
        subst h1
        subst h2
        refine ⟨offset, ?_, ?_, ?_⟩
        · apply hpres
          rw [findSlice_append, (findSlice_eq_none_iff idx id₀).2 hid, findSlice,
            if_pos rfl]
        · rw [hext']
          simp [hoff]
        · rw [hext', hoff, List.drop_left, List.take_left]
      · exact hrec id₀ seq₀ hmem

/-- Claim C4: for a FASTA input with pairwise-distinct record ids, the
build succeeds and `get_sequence` returns exactly the original sequence
bytes of every record (in particular the newline sentinel is never
included and the output length equals the record's sequence length). -/
theorem fastaIndex_roundtrip (records : List (List Nat × List Nat))
    (hnd : (records.map Prod.fst).Nodup) (id : List Nat) (seq : List Nat)
    (hmem : (id, seq) ∈ records) :
    (buildIndex records).bind (fun p => getSequence p.1 p.2 id) = some seq := by
  obtain ⟨idx', scratch', hrun, _, _, hrec⟩ :=
    buildAux_get records [] [] 0 rfl (by simpa using hnd)
  obtain ⟨off, hfind, hbound, hslice⟩ := hrec id seq hmem
  rw [buildIndex, hrun, Option.some_bind, getSequence, hfind]
  dsimp only
  rw [if_pos hbound, hslice]

/-- Witness for C4 at a concrete two-record FASTA. -/
theorem fastaIndex_roundtrip_witness :
    (([([65], [1, 2]), ([66], [3])] : List (List Nat × List Nat)).map Prod.fst).Nodup
      ∧ (buildIndex [([65], [1, 2]), ([66], [3])]).bind
          (fun p => getSequence p.1 p.2 [66]) = some [3] :=
  ⟨by decide, fastaIndex_roundtrip [([65], [1, 2]), ([66], [3])] (by decide) [66] [3]
    (by decide)⟩

/-- Under a duplicate id the build aborts: `buildAux` returns `none`. -/
theorem buildAux_dup (records : List (List Nat × List Nat)) :
    ∀ idx scratch offset, (idx.map Prod.fst).Nodup →
      ¬(idx.map Prod.fst ++ records.map Prod.fst).Nodup →
      buildAux idx scratch offset records = none := by
  induction records with
  | nil =>
    intro idx scratch offset hidx hdup
    simp at hdup
    exact absurd hidx hdup
  | cons record rest ih =>
    intro idx scratch offset hidx hdup
    obtain ⟨id, seq⟩ := record
    by_cases hid : id ∈ idx.map Prod.fst
    · rw [buildAux, if_pos]
      rw [Option.isSome_iff_exists]
      rcases Option.eq_none_or_eq_some (findSlice idx id) with hnone | ⟨v, hv⟩
      · exact absurd ((findSlice_eq_none_iff idx id).1 hnone) (by simpa using hid)
      · exact ⟨v, hv⟩
    · rw [buildAux, if_neg (by rw [(findSlice_eq_none_iff idx id).2 hid]; simp)]
      apply ih
      · simp [List.nodup_append, hidx, hid]
      · intro hnd
        apply hdup
        have : (idx ++ [(id, offset, seq.length)]).map Prod.fst
            = idx.map Prod.fst ++ [id] := by simp
        rw [this, List.append_assoc] at hnd
        simpa using hnd

/-- The ids recorded by a successful build are exactly the input ids. -/
theorem buildAux_ids (records : List (List Nat × List Nat)) :
    ∀ idx scratch offset idx' scratch',
      buildAux idx scratch offset records = some (idx', scratch') →
      idx'.map Prod.fst = idx.map Prod.fst ++ records.map Prod.fst := by
  induction records with
  | nil =>
    intro idx scratch offset idx' scratch' hrun
    rw [buildAux] at hrun
    obtain ⟨h1, _⟩ := Prod.mk.injEq .. ▸ Option.some.injEq .. ▸ hrun
    simp [← h1]
  | cons record rest ih =>
    intro idx scratch offset idx' scratch' hrun
    obtain ⟨id, seq⟩ := record
    rw [buildAux] at hrun
    split at hrun
    · exact absurd hrun (by simp)
    · have := ih _ _ _ _ _ hrun
      rw [this]
      simp

/-- Claim C9: a duplicate read id during the build is fatal, and a
missing read id at query time is fatal; in both cases no value is
returned. -/
theorem fastaIndex_fatal :
    (∀ records : List (List Nat × List Nat),
      ¬(records.map Prod.fst).Nodup → buildIndex records = none)
    ∧ (∀ (records : List (List Nat × List Nat)) idx scratch id,
        buildIndex records = some (idx, scratch) →
        id ∉ records.map Prod.fst → getSequence idx scratch id = none) := by
  constructor
  · intro records hdup
    exact buildAux_dup records [] [] 0 (by simp) (by simpa using hdup)
  · intro records idx scratch id hrun hid
    have hids := buildAux_ids records [] [] 0 idx scratch hrun
    simp only [List.map_nil, List.nil_append] at hids
    rw [getSequence, (findSlice_eq_none_iff idx id).2 (hids ▸ hid)]

/-- Witness for C9: a duplicated id aborts the build, and querying a
fresh id against a built index returns nothing. -/
theorem fastaIndex_fatal_witness :
    buildIndex [([65], [1]), ([65], [2])] = none
      ∧ getSequence [([65], 0, 1)] [1, 10] [66] = none := by
  constructor
  · exact fastaIndex_fatal.1 [([65], [1]), ([65], [2])] (by decide)
  · exact fastaIndex_fatal.2 [([65], [1])] [([65], 0, 1)] [1, 10] [66] (by decide) (by decide)

/-! ## Section 5: IEEE-754 binary64 and the sorter's edge-offset
arithmetic (`src/main.rs`, sorter task)

A binary64 value is NaN, a signed infinity, or a finite value
represented by its exact rational.  Multiplication and division are
correctly rounded per IEEE-754 (round the exact rational result to
nearest, ties to even, 53-bit precision, exponent range
`[-1022, 1023]`, subnormals at `2^-1074`, overflow to infinity), which
is what this model computes.  The sign of a floating zero is not
tracked: all operands produced by the sorter are non-negative, and for
the operations used here (`*`, `/`, `round`, `as f64`, `as u64`) a
negative zero is never observably different from a positive one. -/

/-- Round a rational to the nearest integer, ties to even. -/
def rne (q : ℚ) : ℤ :=
  if q - ⌊q⌋ < 1 / 2 then ⌊q⌋
  else if 1 / 2 < q - ⌊q⌋ then ⌊q⌋ + 1
  else if ⌊q⌋ % 2 = 0 then ⌊q⌋ else ⌊q⌋ + 1

/-- `⌊log₂ q⌋` for a positive rational. -/
def qexp (q : ℚ) : ℤ :=
  let a : ℤ := Nat.log2 q.num.natAbs
  let b : ℤ := Nat.log2 q.den
  if q < 2 ^ (a - b) then a - b - 1 else a - b

/-- A binary64 value. -/
inductive F64 where
  | nan
  | inf (negative : Bool)
  | fin (val : ℚ)
deriving DecidableEq

/-- Round an exact rational to binary64 (nearest, ties to even). -/
def f64Round (q : ℚ) : F64 :=
  if q = 0 then .fin 0
  else
    let e := qexp |q|
    let sh : ℤ := if e < -1022 then 1074 else 52 - e
    let v : ℚ := (rne (q * 2 ^ sh) : ℚ) * 2 ^ (-sh)
    if (2 : ℚ) ^ (1024 : ℤ) ≤ |v| then .inf (decide (q < 0)) else .fin v

/-- Rust `u as f64` for unsigned integers (correctly rounded). -/
def natToF64 (n : Nat) : F64 :=
  f64Round (n : ℚ)

/-- IEEE-754 binary64 multiplication. -/
def f64Mul : F64 → F64 → F64
  | .nan, _ => .nan
  | _, .nan => .nan
  | .inf s, .inf t => .inf (Bool.xor s t)
  | .inf s, .fin b => if b = 0 then .nan else .inf (Bool.xor s (decide (b < 0)))
  | .fin a, .inf t => if a = 0 then .nan else .inf (Bool.xor t (decide (a < 0)))
  | .fin a, .fin b => f64Round (a * b)

/-- IEEE-754 binary64 division.  Zero divided by zero is NaN. -/
def f64Div : F64 → F64 → F64
  | .nan, _ => .nan
  | _, .nan => .nan
  | .inf _, .inf _ => .nan
  | .inf s, .fin b => .inf (Bool.xor s (decide (b < 0)))
  | .fin _, .inf _ => .fin 0
  | .fin a, .fin b =>
    if b = 0 then (if a = 0 then .nan else .inf (decide (a < 0)))
    else f64Round (a / b)

/-- Rust `f64::round`: round half away from zero.  The result of
rounding a finite double is exactly representable, so no re-rounding
occurs. -/
def f64RoundHalfAway : F64 → F64
  | .nan => .nan
  | .inf s => .inf s
  | .fin q => .fin ((if 0 ≤ q then ⌊q + 1 / 2⌋ else ⌈q - 1 / 2⌉ : ℤ) : ℚ)

/-- Rust `as u64` on an `f64`: saturating cast truncating toward zero;
NaN casts to `0`. -/
def f64ToU64 : F64 → Nat
  | .nan => 0
  | .inf s => if s then 0 else u64Size - 1
  | .fin q => if q < 0 then 0 else if (u64Size : ℚ) ≤ q then u64Size - 1 else ⌊q⌋.toNat

/-- Wrapping `u64` subtraction (`a - b` in a release build). -/
def u64WrapSub (a b : Nat) : Nat :=
  (a % u64Size + u64Size - b % u64Size) % u64Size

/-- The sorter's per-contig running state (`src/main.rs` lines 284–288):
`alignment_count`, the two alignment-length sums, and the previous edge
offset in original and shifted coordinates. -/
structure SorterSums where
  alignmentCount : Nat
  originalAlignmentLengthSum : Nat
  shiftedAlignmentLengthSum : Nat
  originalPreviousOffset : Nat
  shiftedPreviousOffset : Nat
deriving DecidableEq

/-- The fields of a popped record that the sorter's arithmetic reads. -/
inductive SortRec where
  | contig
  | edge (offset : Nat)
  | alignment (length : Nat) (originalLength : Nat)
deriving DecidableEq

/-- The edge-offset rewrite (`src/main.rs` lines 316–322):
`shifted_previous_offset + ((offset - original_previous_offset) as f64
* shifted_alignment_length_sum as f64 / original_alignment_length_sum
as f64).round() as u64`, with `u64` wrapping arithmetic. -/
def edgeShiftedOffset (st : SorterSums) (offset : Nat) : Nat :=
  (st.shiftedPreviousOffset
    + f64ToU64 (f64RoundHalfAway (f64Div
        (f64Mul (natToF64 (u64WrapSub offset st.originalPreviousOffset))
          (natToF64 st.shiftedAlignmentLengthSum))
        (natToF64 st.originalAlignmentLengthSum)))) % u64Size

/-- One record popped in order by the sorter (`src/main.rs` lines
305–353), restricted to the running sums and offsets.  (The
`alignment_count` counter is `i32` in the source; its overflow at
`2^31` alignments per edge is not modelled.) -/
def sorterProcess (st : SorterSums) : SortRec → SorterSums
  | .contig => ⟨0, 0, 0, 0, 0⟩
  | .edge offset => ⟨0, 0, 0, offset % u64Size, edgeShiftedOffset st offset⟩
  | .alignment length originalLength =>
    { st with
      alignmentCount := st.alignmentCount + 1
      originalAlignmentLengthSum :=
        (st.originalAlignmentLengthSum + originalLength) % u64Size
      shiftedAlignmentLengthSum :=
        (st.shiftedAlignmentLengthSum + length) % u64Size }

/-- The sorter's running state after popping `rs` in order. -/
def sorterStateAt (rs : List SortRec) : SorterSums :=
  rs.foldl sorterProcess ⟨0, 0, 0, 0, 0⟩

def isAlignmentRec : SortRec → Bool
  | .alignment _ _ => true
  | _ => false

/-- The alignments popped since the most recent Contig or Edge record. -/
def trailingAlignments (rs : List SortRec) : List SortRec :=
  (rs.reverse.takeWhile isAlignmentRec).reverse

/-- `original_length` sum (with `u64` wrap) over a record list. -/
def modSumOriginal (rs : List SortRec) : Nat :=
  rs.foldl (fun acc r => match r with
    | .alignment _ originalLength => (acc + originalLength) % u64Size
    | _ => acc) 0

/-- `length` sum (with `u64` wrap) over a record list. -/
def modSumShifted (rs : List SortRec) : Nat :=
  rs.foldl (fun acc r => match r with
    | .alignment length _ => (acc + length) % u64Size
    | _ => acc) 0

theorem sorterStateAt_append (rs : List SortRec) (r : SortRec) :
    sorterStateAt (rs ++ [r]) = sorterProcess (sorterStateAt rs) r := by
  rw [sorterStateAt, sorterStateAt, List.foldl_append, List.foldl_cons, List.foldl_nil]

theorem trailingAlignments_append (rs : List SortRec) (r : SortRec) :
    trailingAlignments (rs ++ [r])
      = if isAlignmentRec r then trailingAlignments rs ++ [r] else [] := by
  rw [trailingAlignments, List.reverse_append, List.reverse_singleton,
    List.singleton_append, List.takeWhile_cons]
  split
  · rw [List.reverse_cons, trailingAlignments]
  · rfl

theorem modSumOriginal_append_alignment (rs : List SortRec) (l ol : Nat) :
    modSumOriginal (rs ++ [.alignment l ol]) = (modSumOriginal rs + ol) % u64Size := by
  rw [modSumOriginal, modSumOriginal, List.foldl_append, List.foldl_cons, List.foldl_nil]

theorem modSumShifted_append_alignment (rs : List SortRec) (l ol : Nat) :
    modSumShifted (rs ++ [.alignment l ol]) = (modSumShifted rs + l) % u64Size := by
  rw [modSumShifted, modSumShifted, List.foldl_append, List.foldl_cons, List.foldl_nil]

/-- The sorter's running sums are exactly the (wrapped) sums over the
alignments popped since the most recent Contig or Edge record, and the
count is the number of those alignments. -/
theorem sorterState_sums (rs : List SortRec) :
    (sorterStateAt rs).originalAlignmentLengthSum
        = modSumOriginal (trailingAlignments rs)
      ∧ (sorterStateAt rs).shiftedAlignmentLengthSum
        = modSumShifted (trailingAlignments rs)
      ∧ (sorterStateAt rs).alignmentCount = (trailingAlignments rs).length := by
  induction rs using List.reverseRecOn with
  | nil => exact ⟨rfl, rfl, rfl⟩
  | append_singleton rs r ih =>
    obtain ⟨ih₁, ih₂, ih₃⟩ := ih
    rw [sorterStateAt_append, trailingAlignments_append]
    cases r with
    | contig => exact ⟨rfl, rfl, rfl⟩
    | edge offset => exact ⟨rfl, rfl, rfl⟩
    | alignment l ol =>
      rw [if_pos (show isAlignmentRec (SortRec.alignment l ol) = true from rfl),
        modSumOriginal_append_alignment, modSumShifted_append_alignment]
      refine ⟨?_, ?_, ?_⟩
      · rw [sorterProcess, ← ih₁]
      · rw [sorterProcess, ← ih₂]
      · rw [sorterProcess, List.length_append, ← ih₃]
        rfl

/-- Claim C6: popping an Edge rewrites its offset to
`shifted_previous_offset + round((offset - original_previous_offset)
* shifted_alignment_length_sum / original_alignment_length_sum)`
(binary64 arithmetic, `u64` casts), then sets
`original_previous_offset` to the edge's original offset,
`shifted_previous_offset` to the rewritten offset, and resets the two
sums and the alignment count to zero; the sums so used are those
accumulated over the alignments popped since the previous Edge or
Contig record. -/
theorem sorter_edge_rewrite (rs : List SortRec) (o : Nat) :
    sorterStateAt (rs ++ [SortRec.edge o])
      = ⟨0, 0, 0, o % u64Size,
          ((sorterStateAt rs).shiftedPreviousOffset
            + f64ToU64 (f64RoundHalfAway (f64Div
                (f64Mul (natToF64 (u64WrapSub o (sorterStateAt rs).originalPreviousOffset))
                  (natToF64 (sorterStateAt rs).shiftedAlignmentLengthSum))
                (natToF64 (sorterStateAt rs).originalAlignmentLengthSum)))) % u64Size⟩
    ∧ (sorterStateAt rs).originalAlignmentLengthSum
        = modSumOriginal (trailingAlignments rs)
    ∧ (sorterStateAt rs).shiftedAlignmentLengthSum
        = modSumShifted (trailingAlignments rs)
    ∧ (sorterStateAt rs).alignmentCount = (trailingAlignments rs).length := by
  obtain ⟨h₁, h₂, h₃⟩ := sorterState_sums rs
  exact ⟨by rw [sorterStateAt_append]; rfl, h₁, h₂, h₃⟩

theorem f64Round_ne_nan (q : ℚ) : f64Round q ≠ F64.nan := by
  rw [f64Round]
  split
  · simp
  · dsimp only
    split <;> split <;> simp

@[simp] theorem f64Round_zero : f64Round 0 = F64.fin 0 := by
  rw [f64Round, if_pos rfl]

theorem f64Mul_fin_zero (x : F64) : f64Mul x (F64.fin 0) = F64.fin 0 ∨
    f64Mul x (F64.fin 0) = F64.nan := by
  cases x with
  | nan => exact Or.inr rfl
  | inf s => right; rw [f64Mul, if_pos rfl]
  | fin a => left; rw [f64Mul, mul_zero, f64Round_zero]

theorem f64Div_zero_nan (x : F64) (hx : x = F64.fin 0 ∨ x = F64.nan) :
    f64Div x (F64.fin 0) = F64.nan := by
  rcases hx with rfl | rfl
  · rw [f64Div, if_pos rfl, if_pos rfl]
  · rfl

/-- `shifted_previous_offset` always fits in `u64`. -/
theorem sorterState_prev_lt (rs : List SortRec) :
    (sorterStateAt rs).shiftedPreviousOffset < u64Size := by
  induction rs using List.reverseRecOn with
  | nil => exact Nat.pos_pow_of_pos 64 (by omega)
  | append_singleton rs r ih =>
    rw [sorterStateAt_append]
    cases r with
    | contig => exact Nat.pos_pow_of_pos 64 (by omega)
    | edge offset =>
      exact Nat.mod_lt _ (Nat.pos_pow_of_pos 64 (by omega))
    | alignment l ol => exact ih

/-- Claim C10: when no alignment was popped since the most recent
Contig or Edge record, both sums are zero, the scaling expression
divides zero by zero in binary64 giving NaN, the NaN rounds and casts
to `0`, and the rewritten edge offset equals `shifted_previous_offset`
exactly — in particular `0` for the first edge of a contig — regardless
of the edge's original offset. -/
theorem sorter_edge_nan (rs : List SortRec) (o : Nat)
    (h : trailingAlignments rs = []) :
    f64Div (f64Mul (natToF64 (u64WrapSub o (sorterStateAt rs).originalPreviousOffset))
        (natToF64 (sorterStateAt rs).shiftedAlignmentLengthSum))
      (natToF64 (sorterStateAt rs).originalAlignmentLengthSum) = F64.nan
    ∧ (sorterStateAt (rs ++ [SortRec.edge o])).shiftedPreviousOffset
        = (sorterStateAt rs).shiftedPreviousOffset
    ∧ (∀ rs', rs = rs' ++ [SortRec.contig] →
        (sorterStateAt (rs ++ [SortRec.edge o])).shiftedPreviousOffset = 0) := by
  obtain ⟨h₁, h₂, _⟩ := sorterState_sums rs
  rw [h] at h₁ h₂
  have hsums₁ : (sorterStateAt rs).originalAlignmentLengthSum = 0 := h₁
  have hsums₂ : (sorterStateAt rs).shiftedAlignmentLengthSum = 0 := h₂
  have hnan : f64Div (f64Mul (natToF64 (u64WrapSub o
        (sorterStateAt rs).originalPreviousOffset))
        (natToF64 (sorterStateAt rs).shiftedAlignmentLengthSum))
      (natToF64 (sorterStateAt rs).originalAlignmentLengthSum) = F64.nan := by
    rw [hsums₁, hsums₂]
    have h0 : natToF64 0 = F64.fin 0 := by rw [natToF64, Nat.cast_zero, f64Round_zero]
    rw [h0]
    exact f64Div_zero_nan _ (f64Mul_fin_zero _)
  have hoffset : (sorterStateAt (rs ++ [SortRec.edge o])).shiftedPreviousOffset
      = (sorterStateAt rs).shiftedPreviousOffset := by
    rw [sorterStateAt_append]
    show edgeShiftedOffset (sorterStateAt rs) o = _
    rw [edgeShiftedOffset, hnan]
    show ((sorterStateAt rs).shiftedPreviousOffset + 0) % u64Size = _
    rw [Nat.add_zero, Nat.mod_eq_of_lt (sorterState_prev_lt rs)]
  refine ⟨hnan, hoffset, ?_⟩
  intro rs' hrs
  rw [hoffset, hrs, sorterStateAt_append]
  rfl

/-- Witness for C10: the first edge of a contig gets offset `0` no
matter its original offset. -/
theorem sorter_edge_nan_witness :
    trailingAlignments [SortRec.contig] = []
      ∧ (sorterStateAt ([SortRec.contig] ++ [SortRec.edge 7])).shiftedPreviousOffset = 0 :=
  ⟨by decide, (sorter_edge_nan [SortRec.contig] 7 (by decide)).2.2 [] rfl⟩

/-! ## Section 6: the parser's context stamping and the sorter's reorder
buffer (`src/main.rs`, parser and sorter tasks)

Records are `(LineContext, payload)` pairs with an abstract payload type;
the sorter's reorder buffer (a `BTreeMap` keyed by `LineContext`) is
modelled as an association list kept sorted by the source's `Ord`
comparison, whose carry-over `assert_eq!`s make it partial
(`Option Ordering`). -/

/-- The three layout-line kinds the parser routes on. -/
inductive LineKind where
  | contig
  | edge
  | alignment
deriving DecidableEq

/-- One step of the parser's context stamping (`src/main.rs` lines
143–194): contigs freeze the previous contig's edge and alignment
counts; edges require an open contig and freeze the previous edge's
alignment count; alignments require an open contig and edge.  Failed
`assert!`s are `none`. -/
def parserStep (ctx : LineContext) : LineKind → Option LineContext
  | .contig =>
    let ctx₁ := if ctx.contigIndex ≠ -1 then
        { ctx with
          previousContigEdgeCount := ctx.edgeIndex + 1
          previousEdgeAlignmentCount := ctx.alignmentIndex + 1 }
      else ctx
    some { ctx₁ with
      contigIndex := ctx₁.contigIndex + 1
      edgeIndex := -1
      alignmentIndex := -1 }
  | .edge =>
    if 0 ≤ ctx.contigIndex then
      let ctx₁ := if ctx.edgeIndex ≠ -1 then
          { ctx with previousEdgeAlignmentCount := ctx.alignmentIndex + 1 }
        else ctx
      some { ctx₁ with
        edgeIndex := ctx₁.edgeIndex + 1
        alignmentIndex := -1 }
    else none
  | .alignment =>
    if 0 ≤ ctx.contigIndex ∧ 0 ≤ ctx.edgeIndex then
      some { ctx with alignmentIndex := ctx.alignmentIndex + 1 }
    else none

/-- The parser's stream of stamped contexts, one per input line. -/
def parserRun (ctx : LineContext) : List LineKind → Option (List LineContext)
  | [] => some []
  | k :: ks =>
    (parserStep ctx k).bind fun ctx' => (parserRun ctx' ks).map (ctx' :: ·)

/-- The context stamped at position `i` (`defaultContext` used as the
out-of-range junk value). -/
def kAt (K : List LineContext) (i : Nat) : LineContext :=
  K.getD i defaultContext

/-- The sorter's `current_context` once the first `j` records have been
popped: the `j`-th stamp's predecessor. -/
def curAt (K : List LineContext) (j : Nat) : LineContext :=
  if j = 0 then defaultContext else kAt K (j - 1)

/-- The kind of the line at position `i`. -/
def lineKindAt (kinds : List LineKind) (i : Nat) : LineKind :=
  kinds.getD i LineKind.contig

/-- Inversion for a successful contig stamp. -/
theorem parserStep_contig_elim (ctx ctx' : LineContext)
    (h : parserStep ctx .contig = some ctx') :
    ctx' = ⟨ctx.contigIndex + 1, -1, -1,
      if ctx.contigIndex ≠ -1 then ctx.edgeIndex + 1 else ctx.previousContigEdgeCount,
      if ctx.contigIndex ≠ -1 then ctx.alignmentIndex + 1
        else ctx.previousEdgeAlignmentCount⟩ := by
  rw [parserStep] at h
  split at h
  · next hc =>
    injection h with h'
    rw [if_pos hc, if_pos hc]
    exact h'.symm
  · next hc =>
    injection h with h'
    rw [if_neg hc, if_neg hc]
    exact h'.symm

/-- Inversion for a successful edge stamp. -/
theorem parserStep_edge_elim (ctx ctx' : LineContext)
    (h : parserStep ctx .edge = some ctx') :
    0 ≤ ctx.contigIndex
      ∧ ctx' = ⟨ctx.contigIndex, ctx.edgeIndex + 1, -1, ctx.previousContigEdgeCount,
          if ctx.edgeIndex ≠ -1 then ctx.alignmentIndex + 1
            else ctx.previousEdgeAlignmentCount⟩ := by
  rw [parserStep] at h
  split at h
  · next hg =>
    refine ⟨hg, ?_⟩
    dsimp only at h
    split at h
    · next he =>
      injection h with h'
      rw [if_pos he]
      exact h'.symm
    · next he =>
      injection h with h'
      rw [if_neg he]
      exact h'.symm
  · exact absurd h (by simp)

/-- Inversion for a successful alignment stamp. -/
theorem parserStep_alignment_elim (ctx ctx' : LineContext)
    (h : parserStep ctx .alignment = some ctx') :
    0 ≤ ctx.contigIndex ∧ 0 ≤ ctx.edgeIndex
      ∧ ctx' = ⟨ctx.contigIndex, ctx.edgeIndex, ctx.alignmentIndex + 1,
          ctx.previousContigEdgeCount, ctx.previousEdgeAlignmentCount⟩ := by
  rw [parserStep] at h
  split at h
  · next hg =>
    injection h with h'
    exact ⟨hg.1, hg.2, h'.symm⟩
  · exact absurd h (by simp)

/-- Inversion for a successful run on a cons. -/
theorem parserRun_cons_elim (ctx : LineContext) (k : LineKind) (ks : List LineKind)
    (K : List LineContext) (h : parserRun ctx (k :: ks) = some K) :
    ∃ ctx' K', parserStep ctx k = some ctx' ∧ parserRun ctx' ks = some K'
      ∧ K = ctx' :: K' := by
  rw [parserRun] at h
  cases hstep : parserStep ctx k with
  | none => rw [hstep] at h; simp at h
  | some ctx' =>
    rw [hstep, Option.some_bind] at h
    cases hrun : parserRun ctx' ks with
    | none => rw [hrun] at h; simp at h
    | some K' =>
      rw [hrun] at h
      simp only [Option.map_some', Option.some.injEq] at h
      exact ⟨ctx', K', rfl, hrun, h.symm⟩

theorem parserRun_length (ks : List LineKind) :
    ∀ ctx K, parserRun ctx ks = some K → K.length = ks.length := by
  induction ks with
  | nil =>
    intro ctx K h
    rw [parserRun] at h
    simp only [Option.some.injEq] at h
    rw [← h]
    rfl
  | cons k ks ih =>
    intro ctx K h
    obtain ⟨ctx', K', _, hrun, rfl⟩ := parserRun_cons_elim ctx k ks K h
    simp [ih ctx' K' hrun]

/-- Pointwise characterization of a parser run: each stamp is produced
by one `parserStep` from its predecessor. -/
theorem parserRun_pointwise (ks : List LineKind) :
    ∀ ctx K, parserRun ctx ks = some K →
      ∀ i, i < ks.length →
        parserStep ((ctx :: K).getD i defaultContext) (lineKindAt ks i)
          = some (kAt K i) := by
  induction ks with
  | nil => intro ctx K _ i hi; simp at hi
  | cons k ks ih =>
    intro ctx K h i hi
    obtain ⟨ctx', K', hstep, hrun, rfl⟩ := parserRun_cons_elim ctx k ks K h
    cases i with
    | zero => exact hstep
    | succ i => exact ih ctx' K' hrun i (by simpa using hi)

/-- The pointwise fact in `curAt` form. -/
theorem parserRun_step_at (kinds : List LineKind) (K : List LineContext)
    (hK : parserRun defaultContext kinds = some K) (i : Nat) (hi : i < K.length) :
    parserStep (curAt K i) (lineKindAt kinds i) = some (kAt K i) := by
  have hlen := parserRun_length kinds defaultContext K hK
  have hpw := parserRun_pointwise kinds defaultContext K hK i (by omega)
  have hcur : (defaultContext :: K).getD i defaultContext = curAt K i := by
    cases i with
    | zero => rfl
    | succ i => rfl
  rw [hcur] at hpw
  exact hpw

/-- Every successfully stamped context has an open contig. -/
theorem parserRun_contig_nonneg (kinds : List LineKind) (K : List LineContext)
    (hK : parserRun defaultContext kinds = some K) :
    ∀ i, i < K.length → 0 ≤ (kAt K i).contigIndex := by
  intro i
  induction i with
  | zero =>
    intro h0
    have hpw := parserRun_step_at kinds K hK 0 h0
    have hcur : curAt K 0 = defaultContext := rfl
    rw [hcur] at hpw
    cases hk : lineKindAt kinds 0 with
    | contig =>
      rw [hk] at hpw
      rw [parserStep_contig_elim defaultContext _ hpw]
      decide
    | edge =>
      rw [hk] at hpw
      have := (parserStep_edge_elim defaultContext _ hpw).1
      exact absurd this (by decide)
    | alignment =>
      rw [hk] at hpw
      have := (parserStep_alignment_elim defaultContext _ hpw).1
      exact absurd this (by decide)
  | succ i ihi =>
    intro hi
    have hprev := ihi (by omega)
    have hpw := parserRun_step_at kinds K hK (i + 1) hi
    have hcur : curAt K (i + 1) = kAt K i := rfl
    rw [hcur] at hpw
    cases hk : lineKindAt kinds (i + 1) with
    | contig =>
      rw [hk] at hpw
      rw [parserStep_contig_elim _ _ hpw]
      show 0 ≤ (kAt K i).contigIndex + 1
      omega
    | edge =>
      rw [hk] at hpw
      rw [(parserStep_edge_elim _ _ hpw).2]
      exact (parserStep_edge_elim _ _ hpw).1
    | alignment =>
      rw [hk] at hpw
      rw [(parserStep_alignment_elim _ _ hpw).2.2]
      exact (parserStep_alignment_elim _ _ hpw).1

/-- Strict lexicographic order on the index triple. -/
def ltTriple (a b : LineContext) : Prop :=
  a.contigIndex < b.contigIndex
    ∨ (a.contigIndex = b.contigIndex ∧ (a.edgeIndex < b.edgeIndex
        ∨ (a.edgeIndex = b.edgeIndex ∧ a.alignmentIndex < b.alignmentIndex)))

theorem ltTriple_trans {a b c : LineContext} (h₁ : ltTriple a b) (h₂ : ltTriple b c) :
    ltTriple a c := by
  unfold ltTriple at *
  omega

theorem ltTriple_irrefl (a : LineContext) : ¬ltTriple a a := by
  unfold ltTriple
  omega

/-- A parser stamp strictly increases the index triple. -/
theorem parserStep_ltTriple (c c' : LineContext) (k : LineKind)
    (h : parserStep c k = some c') : ltTriple c c' := by
  cases k with
  | contig =>
    rw [parserStep_contig_elim c c' h]
    unfold ltTriple
    dsimp only
    omega
  | edge =>
    rw [(parserStep_edge_elim c c' h).2]
    unfold ltTriple
    dsimp only
    omega
  | alignment =>
    rw [(parserStep_alignment_elim c c' h).2.2]
    unfold ltTriple
    dsimp only
    omega

/-- A parser stamp is the direct successor of its predecessor: `step_dp`.
The hypothesis pins down the only context with a closed contig, the
initial `defaultContext`. -/
theorem parserStep_dp (c c' : LineContext) (k : LineKind)
    (hok : c = defaultContext ∨ 0 ≤ c.contigIndex)
    (h : parserStep c k = some c') : directlyPrecedes c c' = true := by
  cases k with
  | contig =>
    rw [parserStep_contig_elim c c' h]
    rcases hok with rfl | hok
    · decide
    · unfold directlyPrecedes
      dsimp only
      split_ifs <;> first | rfl | (simp_all; omega) | simp_all
  | edge =>
    obtain ⟨hg, he⟩ := parserStep_edge_elim c c' h
    rw [he]
    unfold directlyPrecedes
    dsimp only
    split_ifs <;> first | rfl | (simp_all; omega) | simp_all
  | alignment =>
    obtain ⟨hg₁, hg₂, ha⟩ := parserStep_alignment_elim c c' h
    rw [ha]
    unfold directlyPrecedes
    dsimp only
    split_ifs <;> first | rfl | (simp_all; omega) | simp_all

/-- `x`'s scope data is consistent with the later context `c`: later
contexts have a larger contig, or the same contig with the same frozen
edge count and a larger-or-same-scoped edge. -/
def scopeLe (x c : LineContext) : Prop :=
  x.contigIndex < c.contigIndex
    ∨ (x.contigIndex = c.contigIndex
        ∧ x.previousContigEdgeCount = c.previousContigEdgeCount
        ∧ (x.edgeIndex < c.edgeIndex
            ∨ (x.edgeIndex = c.edgeIndex
                ∧ x.previousEdgeAlignmentCount = c.previousEdgeAlignmentCount)))

theorem scopeLe_refl (x : LineContext) : scopeLe x x := by
  unfold scopeLe
  omega

theorem scopeLe_step (x c c' : LineContext) (k : LineKind)
    (h : parserStep c k = some c') (hs : scopeLe x c) : scopeLe x c' := by
  cases k with
  | contig =>
    rw [parserStep_contig_elim c c' h]
    unfold scopeLe at *
    dsimp only
    omega
  | edge =>
    rw [(parserStep_edge_elim c c' h).2]
    unfold scopeLe at *
    dsimp only
    split_ifs <;> omega
  | alignment =>
    rw [(parserStep_alignment_elim c c' h).2.2]
    unfold scopeLe at *
    dsimp only
    omega

/-- The carry-over counts two contexts must agree on for the source's
`Ord` comparison (its `assert_eq!`s) to succeed. -/
def scopeCompat (x y : LineContext) : Prop :=
  (x.contigIndex = y.contigIndex →
      x.previousContigEdgeCount = y.previousContigEdgeCount)
    ∧ (x.contigIndex = y.contigIndex → x.edgeIndex = y.edgeIndex →
        x.previousEdgeAlignmentCount = y.previousEdgeAlignmentCount)

theorem scopeLe_scopeCompat (x y : LineContext) (h : scopeLe x y) : scopeCompat x y := by
  unfold scopeLe at h
  exact ⟨fun hc => by omega, fun hc he => by omega⟩

theorem scopeCompat_symm (x y : LineContext) (h : scopeCompat x y) : scopeCompat y x :=
  ⟨fun hc => (h.1 hc.symm).symm, fun hc he => (h.2 hc.symm he.symm).symm⟩

/-- `Ord for LineContext` (source lines 135–157): lexicographic on
`(contig_index, edge_index, alignment_index)`, with `assert_eq!` on the
carry-over counts whenever the more significant indices tie; a failed
assert is `none`. -/
def cmpE (a b : LineContext) : Option Ordering :=
  if a.contigIndex < b.contigIndex then some .lt
  else if b.contigIndex < a.contigIndex then some .gt
  else if a.previousContigEdgeCount = b.previousContigEdgeCount then
    if a.edgeIndex < b.edgeIndex then some .lt
    else if b.edgeIndex < a.edgeIndex then some .gt
    else if a.previousEdgeAlignmentCount = b.previousEdgeAlignmentCount then
      (if a.alignmentIndex < b.alignmentIndex then some .lt
       else if b.alignmentIndex < a.alignmentIndex then some .gt
       else some .eq)
    else none
  else none

theorem cmpE_lt (a b : LineContext) (hc : scopeCompat a b) (hlt : ltTriple a b) :
    cmpE a b = some Ordering.lt := by
  obtain ⟨hc₁, hc₂⟩ := hc
  unfold cmpE
  rcases hlt with h | ⟨hce, h⟩
  · rw [if_pos h]
  · rw [if_neg (by omega), if_neg (by omega), if_pos (hc₁ hce)]
    rcases h with h | ⟨hee, h⟩
    · rw [if_pos h]
    · rw [if_neg (by omega), if_neg (by omega), if_pos (hc₂ hce hee), if_pos h]

theorem cmpE_gt (a b : LineContext) (hc : scopeCompat a b) (hlt : ltTriple b a) :
    cmpE a b = some Ordering.gt := by
  obtain ⟨hc₁, hc₂⟩ := hc
  unfold cmpE
  rcases hlt with h | ⟨hce, h⟩
  · rw [if_neg (by omega), if_pos h]
  · rw [if_neg (by omega), if_neg (by omega), if_pos (hc₁ hce.symm)]
    rcases h with h | ⟨hee, h⟩
    · rw [if_neg (by omega), if_pos h]
    · rw [if_neg (by omega), if_neg (by omega), if_pos (hc₂ hce.symm hee.symm),
        if_neg (by omega), if_pos h]

/-- Strict triple monotonicity of the stamp stream. -/
theorem kAt_ltTriple (kinds : List LineKind) (K : List LineContext)
    (hK : parserRun defaultContext kinds = some K) :
    ∀ i i', i < i' → i' < K.length → ltTriple (kAt K i) (kAt K i') := by
  intro i i'
  induction i' with
  | zero => intro h _; exact absurd h (by omega)
  | succ i' ih =>
    intro hlt hi'
    have hstep := parserRun_step_at kinds K hK i' (by omega)
    have hc : curAt K (i' + 1) = kAt K i' := rfl
    by_cases hii : i = i'
    · subst hii
      have := parserStep_ltTriple (curAt K (i + 1)) (kAt K (i + 1)) _
        (parserRun_step_at kinds K hK (i + 1) hi')
      rw [show curAt K (i + 1) = kAt K i from rfl] at this
      exact this
    · have h₁ := ih (by omega) (by omega)
      have h₂ := parserStep_ltTriple (curAt K (i' + 1)) (kAt K (i' + 1)) _
        (parserRun_step_at kinds K hK (i' + 1) hi')
      rw [hc] at h₂
      exact ltTriple_trans h₁ h₂

/-- Scope consistency of an earlier stamp with any later current
context. -/
theorem kAt_scopeLe (kinds : List LineKind) (K : List LineContext)
    (hK : parserRun defaultContext kinds = some K) :
    ∀ i i', i < i' → i' ≤ K.length → scopeLe (kAt K i) (curAt K i') := by
  intro i i'
  induction i' with
  | zero => intro h _; exact absurd h (by omega)
  | succ i' ih =>
    intro hlt hi'
    by_cases hii : i = i'
    · subst hii
      exact (show curAt K (i + 1) = kAt K i from rfl) ▸ scopeLe_refl (kAt K i)
    · have h₁ := ih (by omega) (by omega)
      have hstep := parserRun_step_at kinds K hK i' (by omega)
      have hc : curAt K (i' + 1) = kAt K i' := rfl
      rw [hc]
      exact scopeLe_step _ _ _ _ hstep h₁

/-- The source's comparison succeeds on any two distinct stamps and
orders them by position. -/
theorem cmpE_kAt (kinds : List LineKind) (K : List LineContext)
    (hK : parserRun defaultContext kinds = some K)
    (i m : Nat) (hi : i < K.length) (hm : m < K.length) :
    (i < m → cmpE (kAt K i) (kAt K m) = some Ordering.lt)
      ∧ (m < i → cmpE (kAt K i) (kAt K m) = some Ordering.gt) := by
  constructor
  · intro him
    have hsl := kAt_scopeLe kinds K hK i (m + 1) (by omega) (by omega)
    rw [show curAt K (m + 1) = kAt K m from rfl] at hsl
    exact cmpE_lt _ _ (scopeLe_scopeCompat _ _ hsl) (kAt_ltTriple kinds K hK i m him hm)
  · intro hmi
    have hsl := kAt_scopeLe kinds K hK m (i + 1) (by omega) (by omega)
    rw [show curAt K (i + 1) = kAt K i from rfl] at hsl
    exact cmpE_gt _ _ (scopeCompat_symm _ _ (scopeLe_scopeCompat _ _ hsl))
      (kAt_ltTriple kinds K hK m i hmi hi)

/-- The stamps are pairwise distinct. -/
theorem kAt_injective (kinds : List LineKind) (K : List LineContext)
    (hK : parserRun defaultContext kinds = some K)
    (i m : Nat) (hi : i < K.length) (hm : m < K.length)
    (h : kAt K i = kAt K m) : i = m := by
  by_contra hne
  rcases Nat.lt_or_ge i m with hlt | hge
  · exact ltTriple_irrefl (kAt K m) (h ▸ kAt_ltTriple kinds K hK i m hlt hm)
  · have hlt : m < i := by omega
    exact ltTriple_irrefl (kAt K i) (h.symm ▸ kAt_ltTriple kinds K hK m i hlt hi)

/-- The sorter's pop condition: `current` directly precedes the next
input-order stamp. -/
theorem dp_curAt (kinds : List LineKind) (K : List LineContext)
    (hK : parserRun defaultContext kinds = some K) (j : Nat) (hj : j < K.length) :
    directlyPrecedes (curAt K j) (kAt K j) = true := by
  have hstep := parserRun_step_at kinds K hK j hj
  apply parserStep_dp _ _ _ _ hstep
  cases j with
  | zero => exact Or.inl rfl
  | succ j =>
    right
    exact parserRun_contig_nonneg kinds K hK j (by omega)

/-- Sorted insertion into the reorder buffer, comparing with the
source's `Ord` (`BTreeMap::insert`).  A duplicate key fails the
`assert!(sorted_lines.insert(..).is_none())`; a failed carry-over
`assert_eq!` inside `cmp` is likewise fatal. -/
def insertSorted {β : Type} (k : LineContext) (v : β) :
    List (LineContext × β) → Option (List (LineContext × β))
  | [] => some [(k, v)]
  | (k', v') :: rest =>
    match cmpE k k' with
    | none => none
    | some Ordering.lt => some ((k, v) :: (k', v') :: rest)
    | some Ordering.eq => none
    | some Ordering.gt => (insertSorted k v rest).map ((k', v') :: ·)

/-- The sorter's drain loop (`src/main.rs` lines 298–358): while the
minimum buffered key is the direct successor of `current_context`, pop
it, emit it, and advance `current_context`. -/
def drain {β : Type} (current : LineContext) :
    List (LineContext × β) → List (LineContext × β) →
      LineContext × List (LineContext × β) × List (LineContext × β)
  | [], emitted => (current, [], emitted)
  | (k, v) :: rest, emitted =>
    if directlyPrecedes current k then drain k rest (emitted ++ [(k, v)])
    else (current, (k, v) :: rest, emitted)

/-- The sorter's state: `current_context`, the reorder buffer, and the
records already sent to the writer. -/
structure SorterBuf (β : Type) where
  current : LineContext
  buffer : List (LineContext × β)
  emitted : List (LineContext × β)
deriving DecidableEq

/-- One arrival at the sorter: insert into the buffer, then drain. -/
def sorterStep {β : Type} (st : SorterBuf β) (arrival : LineContext × β) :
    Option (SorterBuf β) :=
  match insertSorted arrival.1 arrival.2 st.buffer with
  | none => none
  | some buf =>
    match drain st.current buf st.emitted with
    | (c, b, e) => some ⟨c, b, e⟩

/-- The sorter run over a whole arrival sequence. -/
def runSorter {β : Type} (arrivals : List (LineContext × β)) : Option (SorterBuf β) :=
  List.foldlM sorterStep ⟨defaultContext, [], []⟩ arrivals

/-- The buffer contents determined by a sorted index list. -/
def entriesOf {β : Type} (L : List (LineContext × β)) (S : List Nat) :
    List (LineContext × β) :=
  S.filterMap fun i => L[i]?

/-- Insert an index into a sorted index list. -/
def insertIdxSorted (i : Nat) : List Nat → List Nat
  | [] => [i]
  | m :: rest => if i < m then i :: m :: rest else m :: insertIdxSorted i rest

/-- First index at or after `j` missing from the sorted index list. -/
def runEnd (j : Nat) : List Nat → Nat
  | [] => j
  | m :: rest => if m = j then runEnd (j + 1) rest else j

/-- What remains of the sorted index list after draining from `j`. -/
def dropRun (j : Nat) : List Nat → List Nat
  | [] => []
  | m :: rest => if m = j then dropRun (j + 1) rest else m :: rest

@[simp] theorem entriesOf_nil {β : Type} (L : List (LineContext × β)) :
    entriesOf L [] = [] := rfl

theorem entriesOf_cons {β : Type} (L : List (LineContext × β)) (m : Nat)
    (S : List Nat) (p : LineContext × β) (hp : L[m]? = some p) :
    entriesOf L (m :: S) = p :: entriesOf L S := by
  rw [entriesOf, List.filterMap_cons, hp]
  rfl

theorem insertIdxSorted_perm (i : Nat) (S : List Nat) :
    (insertIdxSorted i S).Perm (i :: S) := by
  induction S with
  | nil => exact List.Perm.refl _
  | cons m rest ih =>
    rw [insertIdxSorted]
    split
    · exact List.Perm.refl _
    · exact (List.Perm.cons m ih).trans (List.Perm.swap i m rest)

theorem insertIdxSorted_sorted (i : Nat) (S : List Nat) (hi : i ∉ S)
    (hs : S.Pairwise (· < ·)) : (insertIdxSorted i S).Pairwise (· < ·) := by
  induction S with
  | nil => simp [insertIdxSorted]
  | cons m rest ih =>
    rw [insertIdxSorted]
    rw [List.pairwise_cons] at hs
    simp only [List.mem_cons, not_or] at hi
    split
    · next him =>
      rw [List.pairwise_cons]
      refine ⟨?_, List.pairwise_cons.2 hs⟩
      intro a ha
      rcases List.mem_cons.1 ha with rfl | ha
      · exact him
      · exact lt_trans him (hs.1 a ha)
    · next him =>
      rw [List.pairwise_cons]
      have him' : m < i := by
        rcases Nat.lt_or_ge i m with h | h
        · exact absurd h him
        · exact lt_of_le_of_ne h (fun he => hi.1 he.symm)
      refine ⟨?_, ih hi.2 hs.2⟩
      intro a ha
      have := (insertIdxSorted_perm i rest).mem_iff.1 ha
      rcases List.mem_cons.1 this with rfl | ha'
      · exact him'
      · exact hs.1 a ha'

theorem runEnd_ge (S : List Nat) : ∀ j, j ≤ runEnd j S := by
  induction S with
  | nil => intro j; exact le_refl j
  | cons m rest ih =>
    intro j
    rw [runEnd]
    split
    · exact le_trans (Nat.le_succ j) (ih (j + 1))
    · exact le_refl j

theorem runEnd_le (S : List Nat) : ∀ j n, j ≤ n → (∀ m ∈ S, m < n) → runEnd j S ≤ n := by
  induction S with
  | nil => intro j n hj _; exact hj
  | cons m rest ih =>
    intro j n hj hm
    rw [runEnd]
    split
    · next hmj =>
      subst hmj
      exact ih (m + 1) n (hm m (by simp)) (fun a ha => hm a (by simp [ha]))
    · exact hj

theorem dropRun_gt (S : List Nat) : ∀ j, S.Pairwise (· < ·) → (∀ m ∈ S, j ≤ m) →
    ∀ m ∈ dropRun j S, runEnd j S < m := by
  induction S with
  | nil => intro j _ _ m hm; simp [dropRun] at hm
  | cons a rest ih =>
    intro j hs hge m hm
    rw [dropRun] at hm
    rw [runEnd]
    rw [List.pairwise_cons] at hs
    split at hm
    · next haj =>
      subst haj
      rw [if_pos rfl]
      exact ih (a + 1) hs.2 (fun x hx => hs.1 x hx) m hm
    · next haj =>
      rw [if_neg haj]
      have haj' : j < a := lt_of_le_of_ne (hge a (by simp)) (fun he => haj he.symm)
      rcases List.mem_cons.1 hm with rfl | hm'
      · exact haj'
      · exact lt_trans haj' (hs.1 m hm')

theorem dropRun_sublist (S : List Nat) : ∀ j, (dropRun j S).Sublist S := by
  induction S with
  | nil => intro j; simp [dropRun]
  | cons a rest ih =>
    intro j
    rw [dropRun]
    split
    · exact (ih (j + 1)).trans (List.sublist_cons_self a rest)
    · exact List.Sublist.refl _

/-- Draining re-partitions the arrived indices: the indices below `j`
plus the buffered ones equal the indices below the new `j'` plus the
remaining ones. -/
theorem range_runEnd_dropRun (S : List Nat) :
    ∀ j, List.range j ++ S = List.range (runEnd j S) ++ dropRun j S := by
  induction S with
  | nil => intro j; simp [runEnd, dropRun]
  | cons m rest ih =>
    intro j
    rw [runEnd, dropRun]
    split
    · next hmj =>
      subst hmj
      have : List.range m ++ m :: rest = List.range (m + 1) ++ rest := by
        rw [List.range_succ, List.append_assoc]
        rfl
      rw [this, ih (m + 1)]
    · rfl

/-- If every line strictly between the next expected record `j` and a
later record `i` is an alignment (including line `j` itself), then the
sorter's pop condition rejects record `i` at `current = curAt j`: the
missing alignments make every arm of `directly_precedes` fail. -/
theorem noskip (kinds : List LineKind) (K : List LineContext)
    (hK : parserRun defaultContext kinds = some K)
    (j i : Nat) (hji : j < i) (hi : i < K.length)
    (hal : ∀ q, j ≤ q → q < i → lineKindAt kinds q = LineKind.alignment) :
    ¬directlyPrecedes (curAt K j) (kAt K i) = true := by
  have hstepj := parserRun_step_at kinds K hK j (by omega)
  rw [hal j (le_refl j) hji] at hstepj
  obtain ⟨hg₁, hg₂, hj⟩ := parserStep_alignment_elim _ _ hstepj
  have gap : ∀ d, j + d < i →
      (kAt K (j + d)).contigIndex = (curAt K j).contigIndex
      ∧ (kAt K (j + d)).edgeIndex = (curAt K j).edgeIndex
      ∧ (kAt K (j + d)).alignmentIndex = (curAt K j).alignmentIndex + (d : Int) + 1
      ∧ (kAt K (j + d)).previousContigEdgeCount = (curAt K j).previousContigEdgeCount
      ∧ (kAt K (j + d)).previousEdgeAlignmentCount
          = (curAt K j).previousEdgeAlignmentCount := by
    intro d
    induction d with
    | zero =>
      intro _
      rw [show j + 0 = j from rfl, hj]
      refine ⟨rfl, rfl, by dsimp only; omega, rfl, rfl⟩
    | succ d ihd =>
      intro hd
      obtain ⟨ih₁, ih₂, ih₃, ih₄, ih₅⟩ := ihd (by omega)
      have hstepq := parserRun_step_at kinds K hK (j + d + 1) (by omega)
      rw [hal (j + d + 1) (by omega) (by omega)] at hstepq
      have hcur : curAt K (j + d + 1) = kAt K (j + d) := by
        rw [curAt, if_neg (by omega), show j + d + 1 - 1 = j + d from by omega]
      rw [hcur] at hstepq
      obtain ⟨_, _, hq⟩ := parserStep_alignment_elim _ _ hstepq
      rw [show j + (d + 1) = j + d + 1 from by omega, hq]
      refine ⟨ih₁, ih₂, by dsimp only; push_cast; omega, ih₄, ih₅⟩
  obtain ⟨hp₁, hp₂, hp₃, hp₄, hp₅⟩ := (by
    have h := gap (i - 1 - j) (by omega)
    rw [show j + (i - 1 - j) = i - 1 from by omega] at h
    exact h :
    (kAt K (i - 1)).contigIndex = (curAt K j).contigIndex
    ∧ (kAt K (i - 1)).edgeIndex = (curAt K j).edgeIndex
    ∧ (kAt K (i - 1)).alignmentIndex
        = (curAt K j).alignmentIndex + ((i - 1 - j : Nat) : Int) + 1
    ∧ (kAt K (i - 1)).previousContigEdgeCount = (curAt K j).previousContigEdgeCount
    ∧ (kAt K (i - 1)).previousEdgeAlignmentCount
        = (curAt K j).previousEdgeAlignmentCount)
  have hstepi := parserRun_step_at kinds K hK i hi
  have hcuri : curAt K i = kAt K (i - 1) := by
    rw [curAt, if_neg (by omega)]
  rw [hcuri] at hstepi
  have hd1 : (1 : Int) ≤ ((i - 1 - j : Nat) : Int) + 1 := by omega
  cases hkind : lineKindAt kinds i with
  | contig =>
    rw [hkind] at hstepi
    have hki := parserStep_contig_elim _ _ hstepi
    intro hdp
    rw [hki] at hdp
    unfold directlyPrecedes at hdp
    dsimp only at hdp
    simp only [hp₁, hp₂, hp₃, hp₄, hp₅] at hdp
    split_ifs at hdp <;>
      first
      | omega
      | (rw [decide_eq_true_eq] at hdp; omega)
      | exact absurd hdp (by simp)
  | edge =>
    rw [hkind] at hstepi
    have hki := (parserStep_edge_elim _ _ hstepi).2
    intro hdp
    rw [hki] at hdp
    unfold directlyPrecedes at hdp
    dsimp only at hdp
    simp only [hp₁, hp₂, hp₃, hp₄, hp₅] at hdp
    split_ifs at hdp <;>
      first
      | omega
      | (rw [decide_eq_true_eq] at hdp; omega)
      | exact absurd hdp (by simp)
  | alignment =>
    rw [hkind] at hstepi
    have hki := (parserStep_alignment_elim _ _ hstepi).2.2
    intro hdp
    rw [hki] at hdp
    unfold directlyPrecedes at hdp
    dsimp only at hdp
    simp only [hp₁, hp₂, hp₃, hp₄, hp₅] at hdp
    split_ifs at hdp <;>
      first
      | omega
      | (rw [decide_eq_true_eq] at hdp; omega)
      | exact absurd hdp (by simp)

/-- The drain loop pops exactly the maximal run of consecutive
input-order records present in the buffer, in input order, and stops
with the next expected record absent. -/
theorem drain_entries {β : Type} (kinds : List LineKind) (K : List LineContext)
    (hK : parserRun defaultContext kinds = some K)
    (L : List (LineContext × β))
    (hL : ∀ i, i < K.length → ∃ v, L[i]? = some (kAt K i, v)) :
    ∀ (S : List Nat) (j : Nat),
      j ≤ K.length → S.Pairwise (· < ·) → (∀ m ∈ S, j ≤ m ∧ m < K.length) →
      (∀ m p, m < p → p ∈ S → j ≤ m → lineKindAt kinds m ≠ LineKind.alignment → m ∈ S) →
      drain (curAt K j) (entriesOf L S) (L.take j)
        = (curAt K (runEnd j S), entriesOf L (dropRun j S), L.take (runEnd j S)) := by
  intro S
  induction S with
  | nil =>
    intro j _ _ _ _
    rfl
  | cons m rest ih =>
    intro j hj hsort hbounds hclosure
    obtain ⟨hmj, hmn⟩ := hbounds m (by simp)
    obtain ⟨v, hv⟩ := hL m hmn
    rw [entriesOf_cons L m rest _ hv, drain]
    by_cases hcase : m = j
    · subst hcase
      rw [if_pos (dp_curAt kinds K hK m hmn)]
      have htake : L.take m ++ [(kAt K m, v)] = L.take (m + 1) := by
        rw [List.take_succ, hv]
        rfl
      have hcur : kAt K m = curAt K (m + 1) := rfl
      rw [htake, hcur, ih (m + 1) hmn (List.pairwise_cons.1 hsort).2
        (fun x hx => ⟨(List.pairwise_cons.1 hsort).1 x hx, (hbounds x (by simp [hx])).2⟩)
        ?_]
      · rw [show runEnd m (m :: rest) = runEnd (m + 1) rest from by
            rw [runEnd, if_pos rfl],
          show dropRun m (m :: rest) = dropRun (m + 1) rest from by
            rw [dropRun, if_pos rfl]]
      · intro q p hqp hp hq hkind
        have := hclosure q p hqp (by simp [hp]) (by omega) hkind
        rcases List.mem_cons.1 this with rfl | hq'
        · omega
        · exact hq'
    · have hjm : j < m := lt_of_le_of_ne hmj (fun h => hcase h.symm)
      have hnodp : ¬directlyPrecedes (curAt K j) (kAt K m) = true := by
        apply noskip kinds K hK j m hjm hmn
        intro q hq1 hq2
        by_contra hqk
        have hqS := hclosure q m hq2 (by simp) hq1 hqk
        rcases List.mem_cons.1 hqS with rfl | hq'
        · omega
        · have := (List.pairwise_cons.1 hsort).1 q hq'
          omega
      rw [if_neg hnodp,
        show runEnd j (m :: rest) = j from by rw [runEnd, if_neg hcase],
        show dropRun j (m :: rest) = m :: rest from by rw [dropRun, if_neg hcase],
        entriesOf_cons L m rest _ hv]

theorem insertSorted_cons_lt {β : Type} (k : LineContext) (v : β)
    (k' : LineContext) (v' : β) (rest : List (LineContext × β))
    (h : cmpE k k' = some Ordering.lt) :
    insertSorted k v ((k', v') :: rest) = some ((k, v) :: (k', v') :: rest) := by
  rw [insertSorted, h]

theorem insertSorted_cons_gt {β : Type} (k : LineContext) (v : β)
    (k' : LineContext) (v' : β) (rest : List (LineContext × β))
    (h : cmpE k k' = some Ordering.gt) :
    insertSorted k v ((k', v') :: rest)
      = (insertSorted k v rest).map ((k', v') :: ·) := by
  rw [insertSorted, h]

/-- Inserting a fresh arrival into the buffer of a sorted index set
produces the buffer of the enlarged sorted index set. -/
theorem insertSorted_entries {β : Type} (kinds : List LineKind) (K : List LineContext)
    (hK : parserRun defaultContext kinds = some K) (L : List (LineContext × β))
    (hL : ∀ i, i < K.length → ∃ v, L[i]? = some (kAt K i, v))
    (i : Nat) (hin : i < K.length) (v : β) (hv : L[i]? = some (kAt K i, v)) :
    ∀ S : List Nat, i ∉ S → (∀ m ∈ S, m < K.length) →
      insertSorted (kAt K i) v (entriesOf L S)
        = some (entriesOf L (insertIdxSorted i S)) := by
  intro S
  induction S with
  | nil =>
    intro _ _
    rw [entriesOf_nil, insertSorted, insertIdxSorted,
      entriesOf_cons L i [] _ hv, entriesOf_nil]
  | cons m rest ihS =>
    intro hiS hbound
    have hmn : m < K.length := hbound m (by simp)
    obtain ⟨w, hw⟩ := hL m hmn
    rw [entriesOf_cons L m rest _ hw]
    rcases Nat.lt_or_ge i m with hlt | hge
    · rw [insertSorted_cons_lt _ _ _ _ _ ((cmpE_kAt kinds K hK i m hin hmn).1 hlt),
        insertIdxSorted, if_pos hlt, entriesOf_cons L i _ _ hv,
        entriesOf_cons L m rest _ hw]
    · have hgt : m < i := by
        rcases Nat.eq_or_lt_of_le hge with h | h
        · exact absurd h.symm (fun he => hiS (by simp [he]))
        · exact h
      rw [insertSorted_cons_gt _ _ _ _ _ ((cmpE_kAt kinds K hK i m hin hmn).2 hgt),
        ihS (fun h => hiS (by simp [h])) (fun x hx => hbound x (by simp [hx])),
        insertIdxSorted, if_neg (by omega), entriesOf_cons L m _ _ hw]
      rfl

theorem sorterStep_eq {β : Type} (st : SorterBuf β) (a : LineContext × β)
    (buf : List (LineContext × β)) (hins : insertSorted a.1 a.2 st.buffer = some buf)
    (c : LineContext) (b e : List (LineContext × β))
    (hdr : drain st.current buf st.emitted = (c, b, e)) :
    sorterStep st a = some ⟨c, b, e⟩ := by
  rw [sorterStep, hins]
  dsimp only
  rw [hdr]

/-- The parser's stamps are pairwise distinct. -/
theorem K_nodup (kinds : List LineKind) (K : List LineContext)
    (hK : parserRun defaultContext kinds = some K) : K.Nodup := by
  rw [List.nodup_iff_injective_get]
  intro a b hab
  have ha : K.get a = kAt K a.1 := by
    rw [kAt, List.getD_eq_get K defaultContext a.isLt]
  have hb : K.get b = kAt K b.1 := by
    rw [kAt, List.getD_eq_get K defaultContext b.isLt]
  have := kAt_injective kinds K hK a.1 b.1 a.isLt b.isLt (by rw [← ha, ← hb, hab])
  exact Fin.ext this

/-- The pipeline's arrival-order constraint: a non-alignment record
reaches the sorter before every record that follows it in input order
(contigs and edges are sent to the sorter queue directly by the parser,
before any later line is even parsed; alignments detour through the
decorator and the decompressors).  Stated over prefixes of the arrival
sequence. -/
def pipelineConsistent {β : Type} (kinds : List LineKind) (K : List LineContext)
    (arr : List (LineContext × β)) : Prop :=
  ∀ p, p < K.length → ∀ m, m < p → lineKindAt kinds m ≠ LineKind.alignment →
    ∀ t, t ≤ arr.length →
      kAt K p ∈ (arr.take t).map Prod.fst → kAt K m ∈ (arr.take t).map Prod.fst

/-- Executable checker for `pipelineConsistent`. -/
def pipelineConsistentB {β : Type} (kinds : List LineKind) (K : List LineContext)
    (arr : List (LineContext × β)) : Bool :=
  (List.range K.length).all fun p =>
    (List.range p).all fun m =>
      (lineKindAt kinds m == LineKind.alignment) ||
      (List.range (arr.length + 1)).all fun t =>
        !(decide (kAt K p ∈ (arr.take t).map Prod.fst)) ||
        decide (kAt K m ∈ (arr.take t).map Prod.fst)

theorem pipelineConsistentB_iff {β : Type} (kinds : List LineKind) (K : List LineContext)
    (arr : List (LineContext × β)) :
    pipelineConsistentB kinds K arr = true ↔ pipelineConsistent kinds K arr := by
  rw [pipelineConsistentB, pipelineConsistent]
  simp only [List.all_eq_true, List.mem_range, Bool.or_eq_true, beq_iff_eq,
    Bool.not_eq_true', decide_eq_true_eq, decide_eq_false_iff_not, Nat.lt_succ_iff]
  constructor
  · intro h p hp m hm hk t ht hmem
    rcases h p hp m hm with h' | h'
    · exact absurd h' hk
    · rcases h' t ht with h'' | h''
      · exact absurd hmem h''
      · exact h''
  · intro h p hp m hm
    by_cases hk : lineKindAt kinds m = LineKind.alignment
    · exact Or.inl hk
    · refine Or.inr fun t ht => ?_
      by_cases hmem : kAt K p ∈ (arr.take t).map Prod.fst
      · exact Or.inr (h p hp m hm hk t ht hmem)
      · exact Or.inl hmem

instance {β : Type} (kinds : List LineKind) (K : List LineContext)
    (arr : List (LineContext × β)) : Decidable (pipelineConsistent kinds K arr) :=
  decidable_of_iff _ (pipelineConsistentB_iff kinds K arr)

/-- Main induction for the sorter: processing the remaining arrivals
from any reachable sorter state pops everything, in input order. -/
theorem sorterAux {β : Type} (kinds : List LineKind) (K : List LineContext)
    (hK : parserRun defaultContext kinds = some K)
    (P : List β) (hP : P.length = K.length)
    (arr : List (LineContext × β)) (hperm : arr.Perm (K.zip P))
    (hcons : pipelineConsistent kinds K arr) :
    ∀ (todo done : List (LineContext × β)) (j : Nat) (S : List Nat),
      arr = done ++ todo → j ≤ K.length →
      S.Pairwise (· < ·) → (∀ m ∈ S, j < m ∧ m < K.length) →
      (done.map Prod.fst).Perm ((List.range j ++ S).map (kAt K)) →
      List.foldlM sorterStep
          ⟨curAt K j, entriesOf (K.zip P) S, (K.zip P).take j⟩ todo
        = some ⟨curAt K K.length, [], K.zip P⟩ := by
  have hLlen : (K.zip P).length = K.length := by
    rw [List.length_zip]
    omega
  have hL : ∀ i, i < K.length → ∃ v, (K.zip P)[i]? = some (kAt K i, v) := by
    intro i hi
    have hiL : i < (K.zip P).length := by omega
    have hiP : i < P.length := by omega
    refine ⟨P[i], ?_⟩
    rw [List.getElem?_eq_getElem hiL, List.getElem_zip]
    have : K[i] = kAt K i := (List.getD_eq_getElem K defaultContext hi).symm
    rw [this]
  have hnodupK : K.Nodup := K_nodup kinds K hK
  have hmapfst : (K.zip P).map Prod.fst = K := List.map_fst_zip K P (by omega)
  have harrkeys : (arr.map Prod.fst).Perm K := by
    have := hperm.map Prod.fst
    rw [hmapfst] at this
    exact this
  have harrnodup : (arr.map Prod.fst).Nodup := harrkeys.nodup_iff.2 hnodupK
  intro todo
  induction todo with
  | nil =>
    intro done j S hsplit hj hsort hbounds hinv
    rw [List.append_nil] at hsplit
    subst hsplit
    have hKperm : K.Perm ((List.range j ++ S).map (kAt K)) := harrkeys.symm.trans hinv
    have hlen : K.length = j + S.length := by
      have := hKperm.length_eq
      simpa using this
    have hjn : j = K.length := by
      by_contra hne
      have hjlt : j < K.length := by omega
      have hmem : kAt K j ∈ K := by
        rw [kAt, List.getD_eq_getElem K defaultContext hjlt]
        exact List.getElem_mem hjlt
      obtain ⟨m, hm, hkm⟩ := List.mem_map.1 (hKperm.subset hmem)
      rcases List.mem_append.1 hm with hm | hm
      · have hmj : m < j := List.mem_range.1 hm
        have := kAt_injective kinds K hK m j (by omega) hjlt hkm
        omega
      · have hb := hbounds m hm
        have := kAt_injective kinds K hK m j hb.2 hjlt hkm
        omega
    subst hjn
    have hS : S = [] := List.eq_nil_of_length_eq_zero (by omega)
    subst hS
    rw [List.foldlM_nil, entriesOf_nil,
      List.take_of_length_le (le_of_eq hLlen)]
    rfl
  | cons kv todo' ih =>
    intro done j S hsplit hj hsort hbounds hinv
    obtain ⟨k, v⟩ := kv
    have hkvmem : (k, v) ∈ K.zip P := hperm.mem_iff.1 (by
      rw [hsplit]
      exact List.mem_append.2 (Or.inr (by simp)))
    obtain ⟨i, hig⟩ := List.mem_iff_getElem?.1 hkvmem
    have hin : i < K.length := by
      have := (List.getElem?_eq_some.1 hig).1
      omega
    have hkv : k = kAt K i ∧ ∃ v', v = v' := by
      obtain ⟨v', hv'⟩ := hL i hin
      rw [hig] at hv'
      have := Option.some.injEq .. ▸ hv'
      exact ⟨(Prod.mk.injEq .. ▸ this).1, v, rfl⟩
    have hki : k = kAt K i := hkv.1
    have hknotdone : k ∉ done.map Prod.fst := by
      intro hc
      have hkeys : arr.map Prod.fst
          = done.map Prod.fst ++ k :: todo'.map Prod.fst := by
        rw [hsplit]
        simp
      have hnd := harrnodup
      rw [hkeys] at hnd
      obtain ⟨-, -, hdisj⟩ := List.nodup_append.1 hnd
      exact hdisj hc (by simp)
    have hfresh : j ≤ i ∧ i ∉ S := by
      constructor
      · by_contra hc
        have : kAt K i ∈ (List.range j ++ S).map (kAt K) :=
          List.mem_map_of_mem _ (List.mem_append.2 (Or.inl (List.mem_range.2 (by omega))))
        exact hknotdone (hki ▸ hinv.mem_iff.2 this)
      · intro hc
        have : kAt K i ∈ (List.range j ++ S).map (kAt K) :=
          List.mem_map_of_mem _ (List.mem_append.2 (Or.inr hc))
        exact hknotdone (hki ▸ hinv.mem_iff.2 this)
    have hvv : (K.zip P)[i]? = some (kAt K i, v) := hki ▸ hig
    have hS₂sorted : (insertIdxSorted i S).Pairwise (· < ·) :=
      insertIdxSorted_sorted i S hfresh.2 hsort
    have hS₂mem : ∀ x, x ∈ insertIdxSorted i S ↔ x = i ∨ x ∈ S := by
      intro x
      rw [(insertIdxSorted_perm i S).mem_iff, List.mem_cons]
    have hS₂bounds : ∀ m ∈ insertIdxSorted i S, j ≤ m ∧ m < K.length := by
      intro m hm
      rcases (hS₂mem m).1 hm with rfl | hm'
      · exact ⟨hfresh.1, hin⟩
      · exact ⟨le_of_lt (hbounds m hm').1, (hbounds m hm').2⟩
    have hinsert := insertSorted_entries kinds K hK (K.zip P) hL i hin v hvv S
      hfresh.2 (fun m hm => (hbounds m hm).2)
    have hdone₂ : (done ++ [(k, v)]).map Prod.fst
        = done.map Prod.fst ++ [k] := by simp
    have hinv₂ : ((done ++ [(k, v)]).map Prod.fst).Perm
        ((List.range j ++ insertIdxSorted i S).map (kAt K)) := by
      rw [hdone₂]
      refine ((List.perm_append_singleton k _).trans (hinv.cons k)).trans ?_
      rw [hki]
      exact (List.perm_middle.symm.map (kAt K)).trans
        ((List.Perm.append_left (List.range j) (insertIdxSorted_perm i S).symm).map (kAt K))
    have htake₂ : arr.take (done.length + 1) = done ++ [(k, v)] := by
      rw [hsplit, show done ++ (k, v) :: todo' = (done ++ [(k, v)]) ++ todo' from by simp,
        List.take_left' (by simp)]
    have hclosure₂ : ∀ m p, m < p → p ∈ insertIdxSorted i S → j ≤ m →
        lineKindAt kinds m ≠ LineKind.alignment → m ∈ insertIdxSorted i S := by
      intro m p hmp hp hjm hkind
      have hpn : p < K.length := (hS₂bounds p hp).2
      have hkp : kAt K p ∈ ((done ++ [(k, v)]).map Prod.fst) := by
        apply hinv₂.mem_iff.2
        exact List.mem_map_of_mem _ (List.mem_append.2 (Or.inr hp))
      have htlen : done.length + 1 ≤ arr.length := by
        rw [hsplit]
        simp
      have hkm := hcons p hpn m hmp hkind (done.length + 1) htlen
        (by rw [htake₂]; exact hkp)
      rw [htake₂] at hkm
      have := hinv₂.mem_iff.1 hkm
      obtain ⟨m₀, hm₀, hkm₀⟩ := List.mem_map.1 this
      have hm₀n : m₀ < K.length := by
        rcases List.mem_append.1 hm₀ with h | h
        · have := List.mem_range.1 h
          omega
        · exact (hS₂bounds m₀ h).2
      have hmm : m₀ = m := kAt_injective kinds K hK m₀ m hm₀n (by omega) hkm₀
      subst hmm
      rcases List.mem_append.1 hm₀ with h | h
      · have := List.mem_range.1 h
        omega
      · exact h
    have hdrain := drain_entries kinds K hK (K.zip P) hL (insertIdxSorted i S) j
      hj hS₂sorted hS₂bounds hclosure₂
    have hmain := ih (done ++ [(k, v)]) (runEnd j (insertIdxSorted i S))
      (dropRun j (insertIdxSorted i S))
      (by rw [hsplit]; simp)
      (runEnd_le _ j K.length hj (fun m hm => (hS₂bounds m hm).2))
      (List.Pairwise.sublist (dropRun_sublist _ j) hS₂sorted)
      (fun m hm => ⟨dropRun_gt _ j hS₂sorted (fun x hx => (hS₂bounds x hx).1) m hm,
        (hS₂bounds m ((dropRun_sublist _ j).subset hm)).2⟩)
      (by rw [← range_runEnd_dropRun]; exact hinv₂)
    rw [List.foldlM_cons,
      sorterStep_eq ⟨curAt K j, entriesOf (K.zip P) S, (K.zip P).take j⟩ (k, v)
        (entriesOf (K.zip P) (insertIdxSorted i S)) (by dsimp only; rw [hki]; exact hinsert)
        _ _ _ hdrain]
    exact hmain

/-- Claim C3: for every record stream successfully stamped by the
parser and every arrival order consistent with the pipeline, the sorter
emits all records in exactly the original input order, ending with an
empty reorder buffer. -/
theorem sorter_restores_input_order {β : Type} (kinds : List LineKind)
    (K : List LineContext) (hK : parserRun defaultContext kinds = some K)
    (P : List β) (hP : P.length = K.length)
    (arr : List (LineContext × β)) (hperm : arr.Perm (K.zip P))
    (hcons : pipelineConsistent kinds K arr) :
    runSorter arr = some ⟨curAt K K.length, [], K.zip P⟩ := by
  have := sorterAux kinds K hK P hP arr hperm hcons arr [] 0 []
    (by simp) (by omega) (by simp) (by simp) (by simp)
  exact this

/-- Witness for C3: a contig, an edge and two alignments whose
decompressed results arrive swapped are emitted in input order. -/
theorem sorter_restores_input_order_witness :
    parserRun defaultContext
        [LineKind.contig, LineKind.edge, LineKind.alignment, LineKind.alignment]
      = some [⟨0, -1, -1, 0, 0⟩, ⟨0, 0, -1, 0, 0⟩, ⟨0, 0, 0, 0, 0⟩, ⟨0, 0, 1, 0, 0⟩]
    ∧ runSorter
        [(⟨0, -1, -1, 0, 0⟩, (10 : Nat)), (⟨0, 0, -1, 0, 0⟩, 20),
         (⟨0, 0, 1, 0, 0⟩, 40), (⟨0, 0, 0, 0, 0⟩, 30)]
      = some ⟨⟨0, 0, 1, 0, 0⟩, [],
          [(⟨0, -1, -1, 0, 0⟩, 10), (⟨0, 0, -1, 0, 0⟩, 20),
           (⟨0, 0, 0, 0, 0⟩, 30), (⟨0, 0, 1, 0, 0⟩, 40)]⟩ := by
  constructor
  · decide
  · exact sorter_restores_input_order
      [LineKind.contig, LineKind.edge, LineKind.alignment, LineKind.alignment]
      [⟨0, -1, -1, 0, 0⟩, ⟨0, 0, -1, 0, 0⟩, ⟨0, 0, 0, 0, 0⟩, ⟨0, 0, 1, 0, 0⟩]
      (by decide) [10, 20, 30, 40] (by decide)
      [(⟨0, -1, -1, 0, 0⟩, (10 : Nat)), (⟨0, 0, -1, 0, 0⟩, 20),
       (⟨0, 0, 1, 0, 0⟩, 40), (⟨0, 0, 0, 0, 0⟩, 30)]
      (by decide) (by decide)

end Wtdbg2
